import Mathlib

/-
Verification of the slogx LayoutHandler (powerman/slogx).

This file contains a shallow embedding of the layout/formatting handler:
the format-directive parser (layout_handler.go, parseAttrFormat with its
regexp), the width/truncation/padding algorithm
(internal handler, handleState.appendFormatValue), the attribute
rendering chain (appendAttr, appendFormat, appendKey, appendString,
appendValue) and the record assembly (LayoutHandler.Handle, WithAttrs,
WithGroup, NewLayoutHandler).

Buffers are modelled as lists of bytes (List Nat), strings as lists of
Unicode code points (List Char), and UTF-8 encoding/decoding explicitly,
because the truncation algorithm counts code points while operating on a
byte buffer.  Go loops are written as fuel-based recursions (the fuel is
always instantiated so that it cannot run out, the loop consumes at least
one byte per step) so that all definitions compute by kernel reduction.

Go `int` values (widths) are modelled as unbounded Int; the only place
where 64-bit overflow matters is strconv.Atoi inside parseAttrFormat,
where the range check is explicit (goMaxInt).
-/

namespace Slogx

/-! ## UTF-8 -/

/-- Number of bytes of the UTF-8 encoding of a code point. -/
def utf8Len (c : Char) : Nat :=
  if c.toNat < 0x80 then 1
  else if c.toNat < 0x800 then 2
  else if c.toNat < 0x10000 then 3
  else 4

/-- UTF-8 encoding of one code point, as bytes. -/
def utf8EncodeChar (c : Char) : List Nat :=
  let v := c.toNat
  if v < 0x80 then [v]
  else if v < 0x800 then [0xC0 + v / 0x40, 0x80 + v % 0x40]
  else if v < 0x10000 then
    [0xE0 + v / 0x1000, 0x80 + v / 0x40 % 0x40, 0x80 + v % 0x40]
  else
    [0xF0 + v / 0x40000, 0x80 + v / 0x1000 % 0x40, 0x80 + v / 0x40 % 0x40,
     0x80 + v % 0x40]

/-- UTF-8 encoding of a string (list of code points) as a byte list. -/
def utf8Encode (cs : List Char) : List Nat :=
  (cs.map utf8EncodeChar).flatten

/-- Bytes of a Lean string literal (UTF-8). -/
def strBytes (s : String) : List Nat := utf8Encode s.toList

/-- Whether a byte is a UTF-8 continuation byte. -/
def isContByte (b : Nat) : Bool := 0x80 ≤ b && b < 0xC0

/-- Whether the first `n` bytes of a list are continuation bytes. -/
def contBytes : List Nat → Nat → Bool
  | _, 0 => true
  | [], _ + 1 => false
  | b :: rest, n + 1 => isContByte b && contBytes rest n

/-- Modelled from Go unicode/utf8.DecodeRune (the repository calls it from
handleState.appendFormatValue; the stdlib source is not under src/): the
byte size of the first code point of a byte list.  On the valid encodings
produced by `utf8Encode` this agrees with DecodeRune; like DecodeRune it
returns 1 on a byte that does not start a valid sequence. -/
def decodeRuneSize : List Nat → Nat
  | [] => 0
  | b :: rest =>
    if b < 0x80 then 1
    else if 0xC0 ≤ b && b < 0xE0 then (if contBytes rest 1 then 2 else 1)
    else if 0xE0 ≤ b && b < 0xF0 then (if contBytes rest 2 then 3 else 1)
    else if 0xF0 ≤ b && b < 0xF8 then (if contBytes rest 3 then 4 else 1)
    else 1

/-- Count of code points in a byte list (fuel-based: one byte min per step). -/
def runeCountAux : Nat → List Nat → Nat
  | 0, _ => 0
  | _ + 1, [] => 0
  | fuel + 1, l@(_ :: _) => 1 + runeCountAux fuel (l.drop (decodeRuneSize l))

/-- Count of code points in a byte list. -/
def runeCount (l : List Nat) : Nat := runeCountAux l.length l

/-! ## Format directives (internal.AttrFormat) -/

/-- internal.AttrFormat: a parsed per-attribute format directive.
Field names PrefixLit/SuffixLit correspond to the source fields
Prefix/Suffix (renamed to keep identifiers clear of Lean keywords). -/
structure AttrFormat where
  PrefixLit : List Char
  SuffixLit : List Char
  MinWidth : Int
  MaxWidth : Int
  AlignRight : Bool
  TruncFromStart : Bool
  SkipQuote : Bool
deriving Repr, DecidableEq

/-- internal.noFormat: `AttrFormat{MaxWidth: -1}` (other fields zero). -/
def noFormat : AttrFormat :=
  { PrefixLit := [], SuffixLit := [], MinWidth := 0, MaxWidth := -1,
    AlignRight := false, TruncFromStart := false, SkipQuote := false }

/-! ## The format spec parser (layout_handler.go parseAttrFormat)

The source matches the anchored regexp

  `^((?:[^%]+|%%)*)(%(-?)(\d*)([.](-?)(\d*))?([vs]))?((?:[^%]+|%%)*)$`

and panics when it does not match or a width overflows the int range.
`scanLit` consumes a maximal literal run `(?:[^%]+|%%)*` (it stops exactly
at a '%' that is not doubled); `matchAttrFormat` is an executable
implementation of the full anchored match with its capture groups (the
match of this regexp, when it exists, is unique, so no backtracking is
needed). -/

def isFmtDigit (c : Char) : Bool := '0' ≤ c && c ≤ '9'

/-- Longest literal-run split: returns (run, rest) where run is the maximal
leading `(?:[^%]+|%%)*` and rest is empty or starts with an unpaired '%'. -/
def scanLit : List Char → List Char × List Char
  | [] => ([], [])
  | '%' :: '%' :: rest =>
    let p := scanLit rest
    ('%' :: '%' :: p.1, p.2)
  | '%' :: rest => ([], '%' :: rest)
  | c :: rest =>
    let p := scanLit rest
    (c :: p.1, p.2)

/-- strings.ReplaceAll(s, "%%", "%") on literal runs. -/
def unescapePercent : List Char → List Char
  | [] => []
  | '%' :: '%' :: rest => '%' :: unescapePercent rest
  | c :: rest => c :: unescapePercent rest

/-- Capture groups of the placeholder part of the regexp:
alignLeft = ms[3], minW = ms[4], hasDot = (ms[5] ≠ ""),
truncStart = (ms[6] = "-"), maxW = ms[7], verbS = (ms[8] = "s"). -/
structure PlaceholderCaps where
  alignLeft : Bool
  minW : List Char
  hasDot : Bool
  truncStart : Bool
  maxW : List Char
  verbS : Bool
deriving Repr, DecidableEq

/-- Executable anchored match of reAttrFormat; `none` means no match
(the Go code panics).  Returns (literal prefix run, placeholder captures,
literal suffix run), all raw (before %% unescaping). -/
def matchAttrFormat (s : List Char) :
    Option (List Char × Option PlaceholderCaps × List Char) :=
  let p := scanLit s
  match p.2 with
  | [] => some (p.1, none, [])
  | '%' :: r1 =>
    let al : Bool × List Char :=
      match r1 with
      | '-' :: t => (true, t)
      | _ => (false, r1)
    let mw := al.2.span isFmtDigit
    let dot : Bool × Bool × List Char × List Char :=
      match mw.2 with
      | '.' :: t =>
        let ts : Bool × List Char :=
          match t with
          | '-' :: u => (true, u)
          | _ => (false, t)
        let xw := ts.2.span isFmtDigit
        (true, ts.1, xw.1, xw.2)
      | _ => (false, false, [], mw.2)
    match dot.2.2.2 with
    | 'v' :: r5 =>
      let q := scanLit r5
      if q.2 = [] then
        some (p.1, some ⟨al.1, mw.1, dot.1, dot.2.1, dot.2.2.1, false⟩, q.1)
      else none
    | 's' :: r5 =>
      let q := scanLit r5
      if q.2 = [] then
        some (p.1, some ⟨al.1, mw.1, dot.1, dot.2.1, dot.2.2.1, true⟩, q.1)
      else none
    | _ => none
  | _ => none

/-- Numeric value of a digit run (how strconv.Atoi reads it). -/
def digitsToNat (l : List Char) : Nat :=
  l.foldl (fun n c => n * 10 + (c.toNat - '0'.toNat)) 0

/-- math.MaxInt64: strconv.Atoi fails with ErrRange above this. -/
def goMaxInt : Nat := 9223372036854775807

/-- layout_handler.go parseAttrFormat: compiles a format spec string into
an AttrFormat; `.error msg` models the panic with message msg. -/
def parseAttrFormat (s : List Char) : Except (List Char) AttrFormat :=
  match matchAttrFormat s with
  | none => .error ("slogx: invalid attr format: ".toList ++ s)
  | some (pre, ph, suf) =>
    let hasVerb := ph.isSome
    let alignLeft := match ph with | some c => c.alignLeft | none => false
    let minWidth := match ph with | some c => c.minW | none => []
    let hasMaxWidth := match ph with | some c => c.hasDot | none => false
    let truncFromStart := match ph with | some c => c.truncStart | none => false
    let maxWidth := match ph with | some c => c.maxW | none => []
    let verbS := match ph with | some c => c.verbS | none => false
    if minWidth ≠ [] ∧ goMaxInt < digitsToNat minWidth then
      .error ("slogx: invalid attr format (min width): ".toList ++ s)
    else if maxWidth ≠ [] ∧ goMaxInt < digitsToNat maxWidth then
      .error ("slogx: invalid attr format (max width): ".toList ++ s)
    else
      .ok { PrefixLit := unescapePercent pre
            SuffixLit := unescapePercent suf
            MinWidth := if minWidth = [] then 0 else (digitsToNat minWidth : Int)
            MaxWidth :=
              if ¬hasVerb then 0
              else if maxWidth ≠ [] then (digitsToNat maxWidth : Int)
              else if hasMaxWidth then 0
              else -1
            AlignRight := !alignLeft
            TruncFromStart := truncFromStart
            SkipQuote := verbS }

/-- layout_handler.go parseAttrFormatMap over an association list
(Go map iteration; the panic of any entry aborts construction). -/
def parseAttrFormatMapE :
    List (List Char × List Char) → Except (List Char) (List (List Char × AttrFormat))
  | [] => .ok []
  | (k, v) :: rest =>
    match parseAttrFormat v with
    | .error e => .error e
    | .ok af =>
      match parseAttrFormatMapE rest with
      | .error e => .error e
      | .ok m => .ok ((k, af) :: m)

/-! ### The spec's format grammar (written from spec.md §4.1, for the
refinement statement of claim C1) -/

/-- A literal run: `%%` escapes allowed, no bare unescaped '%'. -/
def litOK : List Char → Bool
  | [] => true
  | '%' :: '%' :: rest => litOK rest
  | '%' :: _ => false
  | _ :: rest => litOK rest

/-- Spec grammar §4.1: the placeholder is
`'%' ['-'] digits* ('.' ['-'] digits*)? ('v'|'s')` and each width must fit
the native integer range (overflow is an error). -/
def PlaceholderSpec (mid : List Char) : Prop :=
  ∃ (alignL : Bool) (ds : List Char) (dot : Option (Bool × List Char)) (verb : Char),
    mid = '%' :: ((if alignL then ['-'] else []) ++ ds ++
      (match dot with
       | none => []
       | some p => '.' :: ((if p.1 then ['-'] else []) ++ p.2)) ++ [verb]) ∧
    (∀ c ∈ ds, isFmtDigit c) ∧
    (∀ p, dot = some p → ∀ c ∈ p.2, isFmtDigit c) ∧
    (verb = 'v' ∨ verb = 's') ∧
    digitsToNat ds ≤ goMaxInt ∧
    (∀ p, dot = some p → digitsToNat p.2 ≤ goMaxInt)

/-- Spec grammar §4.1 for a whole format spec string: a literal run, or a
literal run, one placeholder, and a literal run. -/
def FormatSpecOK (s : List Char) : Prop :=
  litOK s = true ∨
  ∃ p mid q, s = p ++ mid ++ q ∧ litOK p = true ∧ litOK q = true ∧
    PlaceholderSpec mid

/-- The character string a placeholder capture denotes. -/
def phRender (c : PlaceholderCaps) : List Char :=
  '%' :: ((if c.alignLeft then ['-'] else []) ++ c.minW ++
    (if c.hasDot then
      '.' :: ((if c.truncStart then ['-'] else []) ++ c.maxW)
     else []) ++ [if c.verbS then 's' else 'v'])

/-! ## Values, attributes, records

The attribute data model (slog.Value / slog.Attr, consumed by the handler
through internal's aliases) is modelled as a closed sum following the
spec's data model (§3, design note "closed tagged union"): string,
integer, severity level, nil-any, group, plus a `panicking` variant that
models a value whose textual conversion panics while rendering (carrying
whether the panic is a nil-pointer dereference, and the panic message).
LogValuer resolution (Value.Resolve) is the identity on this closed model
and is therefore not written out. -/

mutual
inductive Value where
  | str (s : List Char)
  | int (i : Int)
  | level (l : Int)
  | anyNil
  | group (as : AttrList)
  | panicking (isNilPtr : Bool) (msg : List Char)
inductive AttrList where
  | nil
  | cons (key : List Char) (v : Value) (rest : AttrList)
end

/-- An attribute: key and value (slog.Attr). -/
abbrev Attr := List Char × Value

def AttrList.isEmpty : AttrList → Bool
  | .nil => true
  | .cons _ _ _ => false

/-- Group contents written as a plain list. -/
def AttrList.ofList : List Attr → AttrList
  | [] => .nil
  | (k, v) :: rest => .cons k v (AttrList.ofList rest)

/-- internal isEmptyGroupValue (part_012). -/
def isEmptyGroupValue : Value → Bool
  | .group as => as.isEmpty
  | _ => false

/-- internal CountEmptyGroups (part_012). -/
def countEmptyGroups (as : List Attr) : Nat :=
  as.foldl (fun n a => if isEmptyGroupValue a.2 then n + 1 else n) 0

/-- `a.Equal(Attr{})`: the zero Attr has empty key and a zero (nil any)
value. -/
def isZeroAttr (a : Attr) : Bool :=
  match a.2 with
  | .anyNil => a.1 = []
  | _ => false

def Value.isGroup : Value → Bool
  | .group _ => true
  | _ => false

/-- A log record (slog.Record).  The time is modelled as `Option` of its
rendered text (none = zero time; custom time formats are not exercised by
the claims, so a time instant is carried as its rendered form). -/
structure Record where
  time : Option (List Char)
  level : Int
  message : List Char
  attrs : List Attr

/-! ## Handler options and handler state -/

def TimeKey : List Char := "time".toList
def LevelKey : List Char := "level".toList
def MessageKey : List Char := "msg".toList

/-- internal.LayoutHandlerOptions (the fields the claims exercise;
AddSource, Level, ReplaceAttr and the two time formats are not set by any
claim: ReplaceAttr is nil throughout, so the `rep == nil` branches of the
source are taken). -/
structure LayoutOptions where
  Format : List (List Char × AttrFormat)
  PrefixKeys : List (List Char)
  SuffixKeys : List (List Char)
deriving Repr, DecidableEq

/-- Go map lookup in the Format map (association list). -/
def lookupFmt : List (List Char × AttrFormat) → List Char → Option AttrFormat
  | [], _ => none
  | (k, v) :: rest, key => if k = key then some v else lookupFmt rest key

/-- startSepState (internal): tracking whether the first emitted attr
already included its own separator. -/
inductive StartSep where
  | sepNone
  | sepSkipped
  | sepIncluded
deriving Repr, DecidableEq

/-- internal.LayoutHandler (the mutex and writer are external; Handle
returns the written bytes instead). `prefixBuf` is the source's `prefix`
field (key prefix). -/
structure LayoutHandler where
  opts : LayoutOptions
  layoutAttrs : List (List Nat)
  preformattedAttrs : List Nat
  preformattedAttrsStart : StartSep
  groups : List (List Char)
  prefixBuf : List Char
deriving Repr, DecidableEq

/-- handleState (internal): per-call working state.  `buf` is the active
output buffer; `prefixBuf` is the source's `prefix` buffer.  The `groups`
slice exists only for ReplaceAttr (nil here) and is dropped. -/
structure HandleState where
  layoutAttrs : List (List Nat)
  buf : List Nat
  bufStart : StartSep
  prefixBuf : List Char
deriving Repr, DecidableEq

/-- Attr separator byte (' '). -/
def attrSep : Nat := 32

/-! ## Rendering chain -/

/-- Modelled from the spec (§4.2): the repository's needsQuoting (internal
text code copied from log/slog, not under src/) quotes a string iff it is
empty or contains a character requiring escaping (control characters,
space, '"', '=', backslash, DEL); printable non-ASCII is safe. -/
def needsQuoting (s : List Char) : Bool :=
  s.isEmpty ||
  s.any (fun c => c = ' ' || c = '"' || c = '=' || c = '\\' ||
                  c.toNat < 0x20 || c.toNat = 0x7F)

/-- Modelled from the spec (§4.2): Go strconv.AppendQuote escaping of one
character (the claims only exercise characters kept verbatim or the
standard two-character escapes). -/
def quoteChar (c : Char) : List Char :=
  if c = '"' then ['\\', '"']
  else if c = '\\' then ['\\', '\\']
  else if c = '\n' then ['\\', 'n']
  else if c = '\t' then ['\\', 't']
  else [c]

/-- Modelled from the spec (§4.2): Go strconv.AppendQuote. -/
def goQuote (s : List Char) : List Char :=
  '"' :: (s.map quoteChar).flatten ++ ['"']

/-- handleState.appendString (part_021): quote unless format.SkipQuote or
no quoting needed. -/
def appendString (st : HandleState) (s : List Char) (format : AttrFormat) :
    HandleState :=
  if ¬format.SkipQuote ∧ needsQuoting s then
    { st with buf := st.buf ++ utf8Encode (goQuote s) }
  else
    { st with buf := st.buf ++ utf8Encode s }

/-- handleState.appendKey (part_021). -/
def appendKey (st : HandleState) (key : List Char) : HandleState :=
  let st1 :=
    if st.buf ≠ [] then
      { st with buf := st.buf ++ [attrSep],
                bufStart := if st.bufStart = .sepNone then .sepIncluded
                            else st.bufStart }
    else
      { st with bufStart := if st.bufStart = .sepNone then .sepSkipped
                            else st.bufStart }
  let st2 := appendString st1 key noFormat
  { st2 with buf := st2.buf ++ utf8Encode ['='] }

/-- Decimal digits of a natural number. -/
def natDigits (n : Nat) : List Char := Nat.toDigits 10 n

/-- Decimal text of an integer (strconv.AppendInt). -/
def intDecimal (i : Int) : List Char :=
  if i < 0 then '-' :: natDigits i.natAbs else natDigits i.natAbs

/-- `%+d` text of an integer (used by shortLevel / Level.String offsets). -/
def intPlus (i : Int) : List Char :=
  if i < 0 then '-' :: natDigits i.natAbs else '+' :: natDigits i.natAbs

/-- slog level constants. -/
def LevelDebug : Int := -4
def LevelInfo : Int := 0
def LevelWarn : Int := 4
def LevelError : Int := 8

/-- Modelled from the spec (§4.2): slog.Level.String (stdlib, not under
src/): long level names with a `+n` offset suffix for non-canonical
levels. -/
def levelString (l : Int) : List Char :=
  if l < LevelInfo then
    "DEBUG".toList ++ (if l = LevelDebug then [] else intPlus (l - LevelDebug))
  else if l < LevelWarn then
    "INFO".toList ++ (if l = LevelInfo then [] else intPlus (l - LevelInfo))
  else if l < LevelError then
    "WARN".toList ++ (if l = LevelWarn then [] else intPlus (l - LevelWarn))
  else
    "ERROR".toList ++ (if l = LevelError then [] else intPlus (l - LevelError))

/-- shortLevel (part_021): three-letter level names. -/
def shortLevel (l : Int) : List Char :=
  if l = LevelDebug then "DBG".toList
  else if l < LevelInfo then 'D' :: intPlus (l - LevelDebug)
  else if l = LevelInfo then "INF".toList
  else if l < LevelWarn then 'I' :: intPlus (l - LevelInfo)
  else if l = LevelWarn then "WRN".toList
  else if l < LevelError then 'W' :: intPlus (l - LevelWarn)
  else if l = LevelError then "ERR".toList
  else 'E' :: intPlus (l - LevelError)

/-- Modelled from the spec (§4.2): the repository's appendTextValue
(internal text code, not under src/) renders a resolved value by kind:
strings through appendString, numbers in canonical decimal form, a level
by its long name, nil as `<nil>`; a value whose conversion panics is
reported as `.error (isNilPtr, msg)` — the Go panic that appendValue
recovers from.  Groups never reach this function (appendAttr recurses
into them first). -/
def appendTextValue (st : HandleState) (v : Value) (format : AttrFormat) :
    Except (Bool × List Char) HandleState :=
  match v with
  | .str s => .ok (appendString st s format)
  | .int i => .ok { st with buf := st.buf ++ utf8Encode (intDecimal i) }
  | .level l => .ok (appendString st (levelString l) format)
  | .anyNil => .ok (appendString st "<nil>".toList format)
  | .group _ => .ok st
  | .panicking isNilPtr msg => .error (isNilPtr, msg)

/-- handleState.appendValue (part_021): renders a value, recovering from a
panicking conversion: `<nil>` for a nil-pointer dereference, otherwise a
literal `!PANIC: <message>` marker. -/
def appendValue (st : HandleState) (v : Value) (format : AttrFormat) :
    HandleState :=
  match appendTextValue st v format with
  | .ok st1 => st1
  | .error p =>
    if p.1 then appendString st "<nil>".toList noFormat
    else appendString st ("!PANIC: ".toList ++ p.2) noFormat

/-! ### The width/truncation core (handleState.appendFormatValue) -/

/-- The ellipsis marker bytes (UTF-8 of '…'). -/
def ellipsisBytes : List Nat := [0xE2, 0x80, 0xA6]

/-- The counting loop of appendFormatValue (part_021 lines 607-635):
walks the appended value bytes rune by rune, counting up to
nMax = max(MinWidth, MaxWidth) runes (or all of them when truncating from
the start), maintaining the cut position for truncation from the end and
the ring buffer of rune sizes plus the start position for truncation from
the beginning.  `rest` is the unread suffix of the value bytes and `i` the
absolute byte position (the source iterates an index into the buffer; the
loop advances at least one byte per step, so fuel = byte length of the
value suffices). -/
def countLoop (format : AttrFormat) (nMax : Int) (quoted : Bool) :
    Nat → List Nat → Nat → Nat → Nat → Nat → List Nat →
    Nat × Nat × Nat × List Nat
  | 0, _, _, n, cutPos, startPos, sizes => (n, cutPos, startPos, sizes)
  | _ + 1, [], _, n, cutPos, startPos, sizes => (n, cutPos, startPos, sizes)
  | fuel + 1, rest@(_ :: _), i, n, cutPos, startPos, sizes =>
    if (n : Int) ≤ nMax ∨ format.TruncFromStart then
      let size := decodeRuneSize rest
      let i1 := i + size
      let n1 := n + 1
      let startPos1 :=
        if 0 < sizes.length then
          if (n1 : Int) > format.MaxWidth then
            startPos + sizes.getD (n1 % sizes.length) 0
          else startPos
        else startPos
      let sizes1 :=
        if 0 < sizes.length then sizes.set (n1 % sizes.length) size else sizes
      let cutPos1 :=
        if 2 ≤ format.MaxWidth ∧ quoted = false ∧ (n1 : Int) = format.MaxWidth - 1 then i1
        else if 2 < format.MaxWidth ∧ quoted = true ∧ (n1 : Int) = format.MaxWidth - 2 then i1
        else cutPos
      countLoop format nMax quoted fuel (rest.drop size) i1 n1 cutPos1 startPos1 sizes1
    else (n, cutPos, startPos, sizes)

/-- handleState.appendFormatValue (part_021 lines 591-692), restricted to
the value region: the source renders the value at byte position `pos` and
then edits only `buf[pos:]`; `applyWidth` is that edit applied to the
rendered value bytes `val` (truncation to MaxWidth with the ellipsis
marker, then padding to MinWidth). -/
def applyWidth (format : AttrFormat) (val : List Nat) : List Nat :=
  let quoted := val.head? = some 34
  let nMax : Int := max format.MinWidth format.MaxWidth
  let sizes0 : List Nat :=
    if format.TruncFromStart ∧ 0 < format.MaxWidth then
      List.replicate format.MaxWidth.toNat 0
    else []
  let r :=
    if 0 < nMax then countLoop format nMax quoted val.length val 0 0 0 0 sizes0
    else (0, 0, 0, sizes0)
  let n := r.1
  let cutPos := r.2.1
  let sizes := r.2.2.2
  let startPos :=
    if 0 < sizes.length ∧ (n : Int) > format.MaxWidth then
      let s1 := r.2.2.1 + sizes.getD ((n + 1) % sizes.length) 0
      if quoted ∧ 1 < sizes.length then
        s1 + sizes.getD ((n + 2) % sizes.length) 0
      else s1
    else r.2.2.1
  let w := format.MaxWidth
  let val1 :=
    if 0 < w ∧ (n : Int) > w then
      if format.TruncFromStart then
        if w = 1 then ellipsisBytes
        else if quoted ∧ w = 2 then ellipsisBytes ++ ellipsisBytes
        else if quoted then 34 :: ellipsisBytes ++ val.drop startPos
        else ellipsisBytes ++ val.drop startPos
      else
        val.take cutPos ++
          (if ¬quoted then ellipsisBytes
           else if w = 1 then ellipsisBytes
           else if w = 2 then ellipsisBytes ++ ellipsisBytes
           else ellipsisBytes ++ [34])
    else val
  let n1 : Int := if 0 < w ∧ (n : Int) > w then w else (n : Int)
  if format.MinWidth > n1 then
    let pad := (format.MinWidth - n1).toNat
    if format.AlignRight then List.replicate pad attrSep ++ val1
    else val1 ++ List.replicate pad attrSep
  else val1

/-- handleState.appendFormatValue (part_021): render the value, then apply
truncation and padding to the value region of the buffer. -/
def appendFormatValue (st : HandleState) (v : Value) (format : AttrFormat) :
    HandleState :=
  let st1 := appendValue st v format
  let val := st1.buf.drop st.buf.length
  { st1 with buf := st.buf ++ applyWidth format val }

/-- handleState.appendFormat (part_021 lines 557-589): literal prefix,
value (with the short-level special case for `%3.3v` on the level key,
and value suppression for MaxWidth = 0), literal suffix, and the
separator-state update. -/
def appendFormat (st : HandleState) (format : AttrFormat) (key : List Char)
    (v : Value) : HandleState :=
  let st1 :=
    if format.PrefixLit ≠ [] then
      { st with buf := st.buf ++ utf8Encode format.PrefixLit }
    else st
  let st2 :=
    if format.MinWidth = 3 ∧ format.MaxWidth = 3 ∧ key = LevelKey then
      match v with
      | .level l => { st1 with buf := st1.buf ++ utf8Encode (shortLevel l) }
      | _ => appendFormatValue st1 v format
    else if format.MaxWidth ≠ 0 then
      appendFormatValue st1 v format
    else if format.MinWidth > 0 then
      { st1 with buf := st1.buf ++ List.replicate format.MinWidth.toNat attrSep }
    else st1
  let st3 :=
    if format.SuffixLit ≠ [] then
      { st2 with buf := st2.buf ++ utf8Encode format.SuffixLit }
    else st2
  if st3.bufStart = .sepNone ∧
     (format.PrefixLit ≠ [] ∨ format.MinWidth > 0 ∨ format.MaxWidth ≠ 0 ∨
      format.SuffixLit ≠ []) then
    { st3 with bufStart := .sepIncluded }
  else st3

/-! ### Attribute dispatch (handleState.appendAttr) -/

/-- layoutAttrs.buffer (part_021 lines 157-168): the slot index of a
prefix/suffix key, if any. -/
def slotIndex (opts : LayoutOptions) (key : List Char) : Option Nat :=
  match opts.PrefixKeys.findIdx? (· = key) with
  | some i => some i
  | none =>
    match opts.SuffixKeys.findIdx? (· = key) with
    | some i => some (opts.PrefixKeys.length + i)
    | none => none

/-- handleState.key (part_021): qualified key (group prefix ++ key). -/
def stateKey (st : HandleState) (key : List Char) : List Char :=
  if st.prefixBuf ≠ [] then st.prefixBuf ++ key else key

/-- handleState.openGroup (the ReplaceAttr group bookkeeping is inactive,
rep = nil). -/
def openGroup (st : HandleState) (name : List Char) : HandleState :=
  { st with prefixBuf := st.prefixBuf ++ name ++ ['.'] }

/-- handleState.closeGroup. -/
def closeGroup (st : HandleState) (name : List Char) : HandleState :=
  { st with prefixBuf := st.prefixBuf.take (st.prefixBuf.length - name.length - 1) }

/-- The leaf (non-group) part of handleState.appendAttr: redirect to the
prefix/suffix slot if the qualified key is designated (the source replaces
the slot, renders into it, then restores the main buffer and the saved
separator state), and render with the configured format or the default
`key=value` form. -/
def appendLeaf (opts : LayoutOptions) (st : HandleState) (key : List Char)
    (v : Value) : HandleState :=
  let render := fun (s : HandleState) =>
    match lookupFmt opts.Format key with
    | some format => appendFormat s format key v
    | none => appendValue (appendKey s key) v noFormat
  match slotIndex opts key with
  | some i =>
    let s1 := render { st with buf := [] }
    { s1 with buf := st.buf, bufStart := st.bufStart,
              layoutAttrs := s1.layoutAttrs.set i s1.buf }
  | none => render st

mutual
/-- handleState.appendAttr (part_021 lines 486-548) with rep = nil:
elide zero attrs, recurse through (non-empty) groups opening a key-path
segment (inlining groups with an empty key), dispatch leaves. -/
def appendAttrKV (opts : LayoutOptions) (st : HandleState) (key : List Char) :
    Value → HandleState
  | .group attrs =>
    if attrs.isEmpty = false then
      if key ≠ [] then
        closeGroup (appendAttrL opts (openGroup st key) attrs) key
      else appendAttrL opts st attrs
    else st
  | v =>
    if isZeroAttr (key, v) then st
    else appendLeaf opts st (stateKey st key) v

/-- handleState.appendAttrs over a group's contents. -/
def appendAttrL (opts : LayoutOptions) (st : HandleState) :
    AttrList → HandleState
  | .nil => st
  | .cons k v rest => appendAttrL opts (appendAttrKV opts st k v) rest
end

/-- handleState.appendAttr. -/
def appendAttr (opts : LayoutOptions) (st : HandleState) (a : Attr) :
    HandleState :=
  appendAttrKV opts st a.1 a.2

/-- handleState.appendAttrs. -/
def appendAttrs (opts : LayoutOptions) (st : HandleState) (as : List Attr) :
    HandleState :=
  as.foldl (appendAttr opts) st

/-! ## The handler: construction, WithAttrs, WithGroup, Handle -/

/-- internal.NewLayoutHandler (part_021 lines 192-225): deduplicate
PrefixKeys and SuffixKeys keeping first occurrences, always ignoring the
message key, a key in both lists stays a prefix; allocate the layout
slots. -/
def newLayoutHandler (opts : LayoutOptions) : LayoutHandler :=
  let step := fun (acc : List (List Char) × List (List Char)) (k : List Char) =>
    if k ∈ acc.2 then acc else (acc.1 ++ [k], acc.2 ++ [k])
  let p := opts.PrefixKeys.foldl step ([], [MessageKey])
  let s := opts.SuffixKeys.foldl step ([], p.2)
  let o : LayoutOptions :=
    { opts with PrefixKeys := p.1, SuffixKeys := s.1 }
  { opts := o
    layoutAttrs := List.replicate (p.1.length + s.1.length) []
    preformattedAttrs := []
    preformattedAttrsStart := .sepNone
    groups := []
    prefixBuf := [] }

/-- LayoutHandler.WithAttrs (part_021 lines 251-267): identity when all
attrs are empty groups; otherwise clone and pre-format the attrs into the
clone's buffers (the clone copies all mutable state, so it is the
functional record update). -/
def LayoutHandler.WithAttrs (h : LayoutHandler) (as : List Attr) :
    LayoutHandler :=
  if countEmptyGroups as = as.length then h
  else
    let st : HandleState :=
      { layoutAttrs := h.layoutAttrs
        buf := h.preformattedAttrs
        bufStart := h.preformattedAttrsStart
        prefixBuf := h.prefixBuf }
    let st1 := appendAttrs h.opts st as
    { h with layoutAttrs := st1.layoutAttrs
             preformattedAttrs := st1.buf
             preformattedAttrsStart := st1.bufStart }

/-- LayoutHandler.WithGroup (part_021 lines 269-278). -/
def LayoutHandler.WithGroup (h : LayoutHandler) (name : List Char) :
    LayoutHandler :=
  if name = [] then h
  else
    { h with groups := h.groups ++ [name]
             prefixBuf := h.prefixBuf ++ name ++ ['.'] }

/-- layoutAttrs.hasPrefix (part_021 lines 148-155). -/
def hasPrefixSlot (opts : LayoutOptions) (la : List (List Nat)) : Bool :=
  (List.range opts.PrefixKeys.length).any (fun i => la.getD i [] ≠ [])

/-- appendNonBuiltIns (part_021 lines 380-404): splice the preformatted
attrs (with the cross-pass separator bookkeeping), then render the
record's own attrs under the handler's group prefix. -/
def appendNonBuiltIns (h : LayoutHandler) (st : HandleState) (r : Record) :
    HandleState :=
  let st1 :=
    if h.preformattedAttrs ≠ [] then
      if st.buf ≠ [] ∧ h.preformattedAttrsStart = .sepSkipped then
        { st with buf := st.buf ++ [attrSep] ++ h.preformattedAttrs
                  bufStart := if st.bufStart = .sepNone then .sepIncluded
                              else st.bufStart }
      else
        { st with buf := st.buf ++ h.preformattedAttrs
                  bufStart := if st.bufStart = .sepNone then
                                h.preformattedAttrsStart
                              else st.bufStart }
    else st
  if r.attrs.isEmpty = false then
    appendAttrs h.opts { st1 with prefixBuf := st1.prefixBuf ++ h.prefixBuf }
      r.attrs
  else st1

/-- The built-in fields part of Handle (part_021 lines 290-335): time
(omitted when zero), level, then — after resetting the separator state and
recording the message position — the message; each through its Format
entry when configured (ReplaceAttr is nil). -/
def handleBuiltIns (h : LayoutHandler) (st : HandleState) (r : Record) :
    HandleState × Nat :=
  let st1 :=
    match r.time with
    | none => st
    | some t =>
      if (lookupFmt h.opts.Format TimeKey).isNone then
        let s := appendKey st TimeKey
        { s with buf := s.buf ++ utf8Encode t }
      else appendAttr h.opts st (TimeKey, .str t)
  let st2 :=
    if (lookupFmt h.opts.Format LevelKey).isNone then
      appendString (appendKey st1 LevelKey) (levelString r.level) noFormat
    else appendAttr h.opts st1 (LevelKey, .level r.level)
  let st3 := { st2 with bufStart := .sepNone }
  let messagePos := st3.buf.length
  let st4 :=
    if (lookupFmt h.opts.Format MessageKey).isNone then
      appendString (appendKey st3 MessageKey) r.message noFormat
    else appendAttr h.opts st3 (MessageKey, .str r.message)
  (st4, messagePos)

/-- The assembly part of Handle (part_021 lines 340-372): insert the
prefix slots before the message when present, append the suffix slots,
and the trailing newline. -/
def assembleLine (h : LayoutHandler) (st : HandleState) (messagePos : Nat) :
    List Nat :=
  let buf :=
    if hasPrefixSlot h.opts st.layoutAttrs then
      let b0 := st.buf.take messagePos
      let b1 :=
        (List.range h.opts.PrefixKeys.length).foldl
          (fun b i =>
            let a := st.layoutAttrs.getD i []
            if a ≠ [] then
              if b ≠ [] ∧
                 (lookupFmt h.opts.Format (h.opts.PrefixKeys.getD i [])).isNone
              then b ++ [attrSep] ++ a
              else b ++ a
            else b)
          b0
      if b1 ≠ [] ∧ st.bufStart = .sepSkipped then
        b1 ++ [attrSep] ++ st.buf.drop messagePos
      else b1 ++ st.buf.drop messagePos
    else st.buf
  let buf2 :=
    (List.range h.opts.SuffixKeys.length).foldl
      (fun b i =>
        let a := st.layoutAttrs.getD (h.opts.PrefixKeys.length + i) []
        if a ≠ [] then
          if b ≠ [] ∧
             (lookupFmt h.opts.Format (h.opts.SuffixKeys.getD i [])).isNone
          then b ++ [attrSep] ++ a
          else b ++ a
        else b)
      buf
  buf2 ++ [10]

/-- LayoutHandler.Handle (part_021 lines 282-378).  Returns the written
line and the handler after the call: when the record carries no attrs the
source reuses `h.layoutAttrs` for the per-call state without cloning it,
so slot writes performed during the call persist in the handler; with
attrs the state gets a clone and the handler is unchanged. -/
def LayoutHandler.Handle (h : LayoutHandler) (r : Record) :
    List Nat × LayoutHandler :=
  let st0 : HandleState :=
    { layoutAttrs := h.layoutAttrs, buf := [], bufStart := .sepNone,
      prefixBuf := [] }
  let p := handleBuiltIns h st0 r
  let st := appendNonBuiltIns h p.1 r
  let out := assembleLine h st p.2
  (out,
   if r.attrs.isEmpty then { h with layoutAttrs := st.layoutAttrs } else h)

/-! ## The public wrapper (layout_handler.go) -/

/-- slogx.LayoutHandler (layout_handler.go lines 191-193): the public
wrapper holding the internal handler. -/
structure LayoutHandlerW where
  next : LayoutHandler
deriving Repr, DecidableEq

/-- slogx.LayoutHandler.WithAttrs (layout_handler.go lines 222-225). -/
def LayoutHandlerW.WithAttrs (h : LayoutHandlerW) (as : List Attr) :
    LayoutHandlerW :=
  ⟨h.next.WithAttrs as⟩

/-- slogx.LayoutHandler.WithGroup (layout_handler.go lines 227-230). -/
def LayoutHandlerW.WithGroup (h : LayoutHandlerW) (name : List Char) :
    LayoutHandlerW :=
  ⟨h.next.WithGroup name⟩

/-- slogx.NewLayoutHandler (layout_handler.go lines 195-215): parse the
Format map (`.error` models the panic) and build the internal handler. -/
def NewLayoutHandlerE (format : List (List Char × List Char))
    (prefixKeys suffixKeys : List (List Char)) :
    Except (List Char) LayoutHandlerW :=
  match parseAttrFormatMapE format with
  | .error e => .error e
  | .ok f =>
    .ok ⟨newLayoutHandler
      { Format := f, PrefixKeys := prefixKeys, SuffixKeys := suffixKeys }⟩


/-! ## Auxiliary definitions for the claim theorems -/

/-- The parsed form of a format spec string (the panic case mapped to the
neutral directive; the claims apply it only to strings that parse). -/
def fmtOf (s : List Char) : AttrFormat :=
  match parseAttrFormat s with
  | .ok af => af
  | .error _ => noFormat

/-- Whether pat occurs as a contiguous run inside the byte list. -/
def hasSub (pat : List Nat) : List Nat → Bool
  | [] => pat.isEmpty
  | l@(_ :: t) => pat.isPrefixOf l || hasSub pat t

/-- The claim C7 scenario: a handler whose Format routes the time built-in
through the attr path (so it renders into its prefix slot). -/
def c7handler : LayoutHandler := newLayoutHandler
  { Format := [(TimeKey, fmtOf "time=%v ".toList)],
    PrefixKeys := [TimeKey], SuffixKeys := [] }

/-- First C7 record: carries a time, no attrs. -/
def c7rec1 : Record := ⟨some "10:00:01".toList, 0, "one".toList, []⟩

/-- Second C7 record: no time, no attrs. -/
def c7rec2 : Record := ⟨none, 0, "two".toList, []⟩

/-! ## Parser lemmas (for claim C1) -/

theorem scanLit_append (l : List Char) : (scanLit l).1 ++ (scanLit l).2 = l := by
  induction l using scanLit.induct <;> simp [scanLit, *]

theorem scanLit_fst_litOK (l : List Char) : litOK (scanLit l).1 = true := by
  induction l using scanLit.induct <;> simp_all [scanLit, litOK]

theorem litOK_iff_scanLit (l : List Char) :
    litOK l = true ↔ (scanLit l).2 = [] := by
  induction l using scanLit.induct <;> simp_all [scanLit, litOK]

theorem scanLit_snd_empty_of_litOK (l : List Char) (h : litOK l = true) :
    scanLit l = (l, []) := by
  have h2 := (litOK_iff_scanLit l).mp h
  have h1 := scanLit_append l
  rw [h2] at h1
  simp at h1
  rw [Prod.ext_iff]
  exact ⟨h1, h2⟩

theorem scanLit_of_litOK (p : List Char) (hp : litOK p = true) :
    ∀ r c t, r = '%' :: c :: t → c ≠ '%' →
      scanLit (p ++ r) = (p, r) := by
  induction p using litOK.induct with
  | case1 => intro r c t hr hc; subst hr; simp [scanLit, hc]
  | case2 rest ih =>
    intro r c t hr hc
    simp only [List.cons_append]
    rw [show scanLit ('%' :: '%' :: (rest ++ r)) =
        (('%' :: '%' :: (scanLit (rest ++ r)).1), (scanLit (rest ++ r)).2) from rfl]
    rw [ih (by simpa [litOK] using hp) r c t hr hc]
  | case3 rest => simp [litOK] at hp
  | case4 c0 rest hne hne3 ihr =>
    intro r c t hr hc
    have hc0 : ¬c0 = '%' := hne3
    have hp' : litOK rest = true := by
      revert hp
      simp [litOK, hc0]
    simp only [List.cons_append]
    simp [scanLit, hc0, ihr hp' r c t hr hc]

theorem isFmtDigit_ne_percent (c : Char) (h : isFmtDigit c = true) :
    c ≠ '%' := by
  intro he
  subst he
  simp [isFmtDigit] at h

theorem isFmtDigit_ne_dash (c : Char) (h : isFmtDigit c = true) :
    c ≠ '-' := by
  intro he
  subst he
  simp [isFmtDigit] at h

theorem isFmtDigit_ne_dot (c : Char) (h : isFmtDigit c = true) :
    c ≠ '.' := by
  intro he
  subst he
  simp [isFmtDigit] at h

theorem takeWhile_digits (ds : List Char) (d : Char) (t : List Char)
    (hds : ∀ c ∈ ds, isFmtDigit c = true) (hd : isFmtDigit d = false) :
    (ds ++ d :: t).takeWhile isFmtDigit = ds := by
  induction ds with
  | nil => simp [List.takeWhile, hd]
  | cons c ds ih =>
    have hc : isFmtDigit c = true := hds c (by simp)
    simp [List.takeWhile, hc, ih (fun x hx => hds x (by simp [hx]))]

theorem dropWhile_digits (ds : List Char) (d : Char) (t : List Char)
    (hds : ∀ c ∈ ds, isFmtDigit c = true) (hd : isFmtDigit d = false) :
    (ds ++ d :: t).dropWhile isFmtDigit = d :: t := by
  induction ds with
  | nil => simp [List.dropWhile, hd]
  | cons c ds ih =>
    have hc : isFmtDigit c = true := hds c (by simp)
    simp [List.dropWhile, hc, ih (fun x hx => hds x (by simp [hx]))]

theorem scanLit_pct (p : List Char) (hp : litOK p = true) (c : Char) (t : List Char)
    (hc : c ≠ '%') :
    scanLit (p ++ '%' :: c :: t) = (p, '%' :: c :: t) :=
  scanLit_of_litOK p hp _ c t rfl hc

theorem mafc_nodot (p q ds : List Char) (alignL : Bool) (verb : Char)
    (hp : litOK p = true) (hq : litOK q = true)
    (hds : ∀ c ∈ ds, isFmtDigit c = true)
    (hverb : verb = 'v' ∨ verb = 's') :
    matchAttrFormat (p ++ ('%' :: ((if alignL then ['-'] else []) ++ ds ++ [verb])) ++ q)
    = some (p, some ⟨alignL, ds, false, false, [], verb == 's'⟩, q) := by
  have hqscan := scanLit_snd_empty_of_litOK q hq
  have hvnd : isFmtDigit verb = false := by
    rcases hverb with hv | hv <;> subst hv <;> decide
  have htake := takeWhile_digits ds verb q hds hvnd
  have hdrop := dropWhile_digits ds verb q hds hvnd
  rcases hverb with hv | hv <;> subst hv <;>
    cases alignL <;> rcases ds with _ | ⟨d, ds⟩ <;>
    (try have hd : isFmtDigit d = true := hds d (by simp)) <;>
    (try have hdp : d ≠ '%' := isFmtDigit_ne_percent d hd) <;>
    (try have hdd : d ≠ '-' := isFmtDigit_ne_dash d hd) <;>
    simp only [List.append_assoc, List.cons_append, List.nil_append] at htake hdrop ⊢ <;>
    simp [matchAttrFormat, scanLit_pct p hp, htake, hdrop, hqscan,
      List.span_eq_take_drop, *]

theorem mafc_dot (p q ds ds2 : List Char) (alignL ts : Bool) (verb : Char)
    (hp : litOK p = true) (hq : litOK q = true)
    (hds : ∀ c ∈ ds, isFmtDigit c = true)
    (hds2 : ∀ c ∈ ds2, isFmtDigit c = true)
    (hverb : verb = 'v' ∨ verb = 's') :
    matchAttrFormat (p ++ ('%' :: ((if alignL then ['-'] else []) ++ ds ++
      ('.' :: ((if ts then ['-'] else []) ++ ds2)) ++ [verb])) ++ q)
    = some (p, some ⟨alignL, ds, true, ts, ds2, verb == 's'⟩, q) := by
  have hqscan := scanLit_snd_empty_of_litOK q hq
  have hvnd : isFmtDigit verb = false := by
    rcases hverb with hv | hv <;> subst hv <;> decide
  have htake := takeWhile_digits ds '.'
    ((if ts then ['-'] else []) ++ (ds2 ++ verb :: q)) hds (by decide)
  have hdrop := dropWhile_digits ds '.'
    ((if ts then ['-'] else []) ++ (ds2 ++ verb :: q)) hds (by decide)
  have htake2 := takeWhile_digits ds2 verb q hds2 hvnd
  have hdrop2 := dropWhile_digits ds2 verb q hds2 hvnd
  rcases hverb with hv | hv <;> subst hv <;>
    cases alignL <;> cases ts <;>
    rcases ds with _ | ⟨d, ds⟩ <;> rcases ds2 with _ | ⟨e, ds2⟩ <;>
    (try have hd : isFmtDigit d = true := hds d (by simp)) <;>
    (try have he : isFmtDigit e = true := hds2 e (by simp)) <;>
    (try have hdp : d ≠ '%' := isFmtDigit_ne_percent d hd) <;>
    (try have hdd : d ≠ '-' := isFmtDigit_ne_dash d hd) <;>
    (try have hed : e ≠ '-' := isFmtDigit_ne_dash e he) <;>
    simp [List.append_assoc, List.cons_append, List.nil_append]
      at htake hdrop htake2 hdrop2 ⊢ <;>
    simp [matchAttrFormat, scanLit_pct p hp, htake, hdrop, htake2, hdrop2, hqscan,
      List.span_eq_take_drop, *]

theorem matchAttrFormat_sound_none (s pre suf : List Char)
    (h : matchAttrFormat s = some (pre, none, suf)) :
    s = pre ∧ suf = [] ∧ litOK pre = true := by
  simp only [matchAttrFormat] at h
  split at h
  next heq =>
    injection h with h1
    injection h1 with h1 h2
    injection h2 with h2 h3
    subst h1 h3
    refine ⟨?_, rfl, scanLit_fst_litOK s⟩
    have := scanLit_append s
    rw [heq, List.append_nil] at this
    exact this.symm
  next r1 heq =>
    split at h
    next r5 heq2 =>
      split at h
      · injection h with h1
        injection h1 with h1 h2
        exact absurd h2 (by simp)
      · exact absurd h (by simp)
    next r5 heq2 =>
      split at h
      · injection h with h1
        injection h1 with h1 h2
        exact absurd h2 (by simp)
      · exact absurd h (by simp)
    next => exact absurd h (by simp)
  next => exact absurd h (by simp)

theorem matchAttrFormat_sound (s pre suf : List Char) (c : PlaceholderCaps)
    (h : matchAttrFormat s = some (pre, some c, suf)) :
    s = pre ++ phRender c ++ suf ∧ litOK pre = true ∧ litOK suf = true ∧
    (∀ x ∈ c.minW, isFmtDigit x = true) ∧ (∀ x ∈ c.maxW, isFmtDigit x = true) ∧
    (c.hasDot = false → c.truncStart = false ∧ c.maxW = []) := by
  have hlitp := scanLit_fst_litOK s
  simp only [matchAttrFormat, List.span_eq_take_drop] at h
  split at h
  next heq => simp at h
  next r1 heq =>
    have hsp : (scanLit s).1 ++ '%' :: r1 = s := by
      have h0 := scanLit_append s
      rw [heq] at h0
      exact h0
    rcases r1 with _ | ⟨c1, t1⟩
    · simp at h
    by_cases hc1 : c1 = '-'
    · subst hc1
      simp at h
      rcases hdw : List.dropWhile isFmtDigit t1 with _ | ⟨d1, u1⟩
      · rw [hdw] at h
        simp at h
      rw [hdw] at h
      by_cases hd1 : d1 = '.'
      · subst hd1
        simp at h
        rcases u1 with _ | ⟨d2, v1⟩
        · simp at h
        by_cases hd2 : d2 = '-'
        · subst hd2
          simp at h
          rcases hdw2 : List.dropWhile isFmtDigit v1 with _ | ⟨e1, w1⟩
          · rw [hdw2] at h
            simp at h
          rw [hdw2] at h
          by_cases hv1 : e1 = 'v'
          · subst hv1
            simp at h
            obtain ⟨hok, h1, h2, h3⟩ := h
            subst h2
            have hwsuf : w1 = suf := by
              have h4 := scanLit_append w1
              rw [hok, List.append_nil, h3] at h4
              exact h4.symm
            have hY : List.takeWhile isFmtDigit v1 ++ 'v' :: suf = v1 := by
              rw [← hwsuf, ← hdw2]
              exact List.takeWhile_append_dropWhile _ _
            have hX : List.takeWhile isFmtDigit t1 ++ '.' :: '-' :: (List.takeWhile isFmtDigit v1 ++ 'v' :: suf) = t1 := by
              rw [hY, ← hdw]
              exact List.takeWhile_append_dropWhile _ _
            refine ⟨?_, ?_, ?_, ?_, ?_, ?_⟩
            · rw [← hsp, h1]
              simp only [phRender]
              simp only [List.append_assoc, List.cons_append, List.nil_append]
              simp [hX]
            · rw [← h1]; exact hlitp
            · rw [← h3]; exact scanLit_fst_litOK _
            · exact fun x hx => List.mem_takeWhile_imp hx
            · exact fun x hx => List.mem_takeWhile_imp hx
            · simp
          by_cases hs1 : e1 = 's'
          · subst hs1
            simp at h
            obtain ⟨hok, h1, h2, h3⟩ := h
            subst h2
            have hwsuf : w1 = suf := by
              have h4 := scanLit_append w1
              rw [hok, List.append_nil, h3] at h4
              exact h4.symm
            have hY : List.takeWhile isFmtDigit v1 ++ 's' :: suf = v1 := by
              rw [← hwsuf, ← hdw2]
              exact List.takeWhile_append_dropWhile _ _
            have hX : List.takeWhile isFmtDigit t1 ++ '.' :: '-' :: (List.takeWhile isFmtDigit v1 ++ 's' :: suf) = t1 := by
              rw [hY, ← hdw]
              exact List.takeWhile_append_dropWhile _ _
            refine ⟨?_, ?_, ?_, ?_, ?_, ?_⟩
            · rw [← hsp, h1]
              simp only [phRender]
              simp only [List.append_assoc, List.cons_append, List.nil_append]
              simp [hX]
            · rw [← h1]; exact hlitp
            · rw [← h3]; exact scanLit_fst_litOK _
            · exact fun x hx => List.mem_takeWhile_imp hx
            · exact fun x hx => List.mem_takeWhile_imp hx
            · simp
          · simp [hv1, hs1] at h
        · simp [hd2] at h
          rcases hdw2 : List.dropWhile isFmtDigit (d2 :: v1) with _ | ⟨e1, w1⟩
          · rw [hdw2] at h
            simp at h
          rw [hdw2] at h
          by_cases hv1 : e1 = 'v'
          · subst hv1
            simp at h
            obtain ⟨hok, h1, h2, h3⟩ := h
            subst h2
            have hwsuf : w1 = suf := by
              have h4 := scanLit_append w1
              rw [hok, List.append_nil, h3] at h4
              exact h4.symm
            have hY : List.takeWhile isFmtDigit (d2 :: v1) ++ 'v' :: suf = (d2 :: v1) := by
              rw [← hwsuf, ← hdw2]
              exact List.takeWhile_append_dropWhile _ _
            have hX : List.takeWhile isFmtDigit t1 ++ '.' :: (List.takeWhile isFmtDigit (d2 :: v1) ++ 'v' :: suf) = t1 := by
              rw [hY, ← hdw]
              exact List.takeWhile_append_dropWhile _ _
            refine ⟨?_, ?_, ?_, ?_, ?_, ?_⟩
            · rw [← hsp, h1]
              simp only [phRender]
              simp only [List.append_assoc, List.cons_append, List.nil_append]
              simp [hX]
            · rw [← h1]; exact hlitp
            · rw [← h3]; exact scanLit_fst_litOK _
            · exact fun x hx => List.mem_takeWhile_imp hx
            · exact fun x hx => List.mem_takeWhile_imp hx
            · simp
          by_cases hs1 : e1 = 's'
          · subst hs1
            simp at h
            obtain ⟨hok, h1, h2, h3⟩ := h
            subst h2
            have hwsuf : w1 = suf := by
              have h4 := scanLit_append w1
              rw [hok, List.append_nil, h3] at h4
              exact h4.symm
            have hY : List.takeWhile isFmtDigit (d2 :: v1) ++ 's' :: suf = (d2 :: v1) := by
              rw [← hwsuf, ← hdw2]
              exact List.takeWhile_append_dropWhile _ _
            have hX : List.takeWhile isFmtDigit t1 ++ '.' :: (List.takeWhile isFmtDigit (d2 :: v1) ++ 's' :: suf) = t1 := by
              rw [hY, ← hdw]
              exact List.takeWhile_append_dropWhile _ _
            refine ⟨?_, ?_, ?_, ?_, ?_, ?_⟩
            · rw [← hsp, h1]
              simp only [phRender]
              simp only [List.append_assoc, List.cons_append, List.nil_append]
              simp [hX]
            · rw [← h1]; exact hlitp
            · rw [← h3]; exact scanLit_fst_litOK _
            · exact fun x hx => List.mem_takeWhile_imp hx
            · exact fun x hx => List.mem_takeWhile_imp hx
            · simp
          · simp [hv1, hs1] at h
      · simp [hd1] at h
        by_cases hv1 : d1 = 'v'
        · subst hv1
          simp at h
          obtain ⟨hok, h1, h2, h3⟩ := h
          subst h2
          have hwsuf : u1 = suf := by
            have h4 := scanLit_append u1
            rw [hok, List.append_nil, h3] at h4
            exact h4.symm
          have hX : List.takeWhile isFmtDigit t1 ++ 'v' :: suf = t1 := by
            rw [← hwsuf, ← hdw]
            exact List.takeWhile_append_dropWhile _ _
          refine ⟨?_, ?_, ?_, ?_, ?_, ?_⟩
          · rw [← hsp, h1]
            simp only [phRender]
            simp only [List.append_assoc, List.cons_append, List.nil_append]
            simp [hX]
          · rw [← h1]; exact hlitp
          · rw [← h3]; exact scanLit_fst_litOK _
          · exact fun x hx => List.mem_takeWhile_imp hx
          · simp
          · simp
        by_cases hs1 : d1 = 's'
        · subst hs1
          simp at h
          obtain ⟨hok, h1, h2, h3⟩ := h
          subst h2
          have hwsuf : u1 = suf := by
            have h4 := scanLit_append u1
            rw [hok, List.append_nil, h3] at h4
            exact h4.symm
          have hX : List.takeWhile isFmtDigit t1 ++ 's' :: suf = t1 := by
            rw [← hwsuf, ← hdw]
            exact List.takeWhile_append_dropWhile _ _
          refine ⟨?_, ?_, ?_, ?_, ?_, ?_⟩
          · rw [← hsp, h1]
            simp only [phRender]
            simp only [List.append_assoc, List.cons_append, List.nil_append]
            simp [hX]
          · rw [← h1]; exact hlitp
          · rw [← h3]; exact scanLit_fst_litOK _
          · exact fun x hx => List.mem_takeWhile_imp hx
          · simp
          · simp
        · simp [hv1, hs1] at h
    · simp [hc1] at h
      rcases hdw : List.dropWhile isFmtDigit (c1 :: t1) with _ | ⟨d1, u1⟩
      · rw [hdw] at h
        simp at h
      rw [hdw] at h
      by_cases hd1 : d1 = '.'
      · subst hd1
        simp at h
        rcases u1 with _ | ⟨d2, v1⟩
        · simp at h
        by_cases hd2 : d2 = '-'
        · subst hd2
          simp at h
          rcases hdw2 : List.dropWhile isFmtDigit v1 with _ | ⟨e1, w1⟩
          · rw [hdw2] at h
            simp at h
          rw [hdw2] at h
          by_cases hv1 : e1 = 'v'
          · subst hv1
            simp at h
            obtain ⟨hok, h1, h2, h3⟩ := h
            subst h2
            have hwsuf : w1 = suf := by
              have h4 := scanLit_append w1
              rw [hok, List.append_nil, h3] at h4
              exact h4.symm
            have hY : List.takeWhile isFmtDigit v1 ++ 'v' :: suf = v1 := by
              rw [← hwsuf, ← hdw2]
              exact List.takeWhile_append_dropWhile _ _
            have hX : List.takeWhile isFmtDigit (c1 :: t1) ++ '.' :: '-' :: (List.takeWhile isFmtDigit v1 ++ 'v' :: suf) = (c1 :: t1) := by
              rw [hY, ← hdw]
              exact List.takeWhile_append_dropWhile _ _
            refine ⟨?_, ?_, ?_, ?_, ?_, ?_⟩
            · rw [← hsp, h1]
              simp only [phRender]
              simp only [List.append_assoc, List.cons_append, List.nil_append]
              simp [hX]
            · rw [← h1]; exact hlitp
            · rw [← h3]; exact scanLit_fst_litOK _
            · exact fun x hx => List.mem_takeWhile_imp hx
            · exact fun x hx => List.mem_takeWhile_imp hx
            · simp
          by_cases hs1 : e1 = 's'
          · subst hs1
            simp at h
            obtain ⟨hok, h1, h2, h3⟩ := h
            subst h2
            have hwsuf : w1 = suf := by
              have h4 := scanLit_append w1
              rw [hok, List.append_nil, h3] at h4
              exact h4.symm
            have hY : List.takeWhile isFmtDigit v1 ++ 's' :: suf = v1 := by
              rw [← hwsuf, ← hdw2]
              exact List.takeWhile_append_dropWhile _ _
            have hX : List.takeWhile isFmtDigit (c1 :: t1) ++ '.' :: '-' :: (List.takeWhile isFmtDigit v1 ++ 's' :: suf) = (c1 :: t1) := by
              rw [hY, ← hdw]
              exact List.takeWhile_append_dropWhile _ _
            refine ⟨?_, ?_, ?_, ?_, ?_, ?_⟩
            · rw [← hsp, h1]
              simp only [phRender]
              simp only [List.append_assoc, List.cons_append, List.nil_append]
              simp [hX]
            · rw [← h1]; exact hlitp
            · rw [← h3]; exact scanLit_fst_litOK _
            · exact fun x hx => List.mem_takeWhile_imp hx
            · exact fun x hx => List.mem_takeWhile_imp hx
            · simp
          · simp [hv1, hs1] at h
        · simp [hd2] at h
          rcases hdw2 : List.dropWhile isFmtDigit (d2 :: v1) with _ | ⟨e1, w1⟩
          · rw [hdw2] at h
            simp at h
          rw [hdw2] at h
          by_cases hv1 : e1 = 'v'
          · subst hv1
            simp at h
            obtain ⟨hok, h1, h2, h3⟩ := h
            subst h2
            have hwsuf : w1 = suf := by
              have h4 := scanLit_append w1
              rw [hok, List.append_nil, h3] at h4
              exact h4.symm
            have hY : List.takeWhile isFmtDigit (d2 :: v1) ++ 'v' :: suf = (d2 :: v1) := by
              rw [← hwsuf, ← hdw2]
              exact List.takeWhile_append_dropWhile _ _
            have hX : List.takeWhile isFmtDigit (c1 :: t1) ++ '.' :: (List.takeWhile isFmtDigit (d2 :: v1) ++ 'v' :: suf) = (c1 :: t1) := by
              rw [hY, ← hdw]
              exact List.takeWhile_append_dropWhile _ _
            refine ⟨?_, ?_, ?_, ?_, ?_, ?_⟩
            · rw [← hsp, h1]
              simp only [phRender]
              simp only [List.append_assoc, List.cons_append, List.nil_append]
              simp [hX]
            · rw [← h1]; exact hlitp
            · rw [← h3]; exact scanLit_fst_litOK _
            · exact fun x hx => List.mem_takeWhile_imp hx
            · exact fun x hx => List.mem_takeWhile_imp hx
            · simp
          by_cases hs1 : e1 = 's'
          · subst hs1
            simp at h
            obtain ⟨hok, h1, h2, h3⟩ := h
            subst h2
            have hwsuf : w1 = suf := by
              have h4 := scanLit_append w1
              rw [hok, List.append_nil, h3] at h4
              exact h4.symm
            have hY : List.takeWhile isFmtDigit (d2 :: v1) ++ 's' :: suf = (d2 :: v1) := by
              rw [← hwsuf, ← hdw2]
              exact List.takeWhile_append_dropWhile _ _
            have hX : List.takeWhile isFmtDigit (c1 :: t1) ++ '.' :: (List.takeWhile isFmtDigit (d2 :: v1) ++ 's' :: suf) = (c1 :: t1) := by
              rw [hY, ← hdw]
              exact List.takeWhile_append_dropWhile _ _
            refine ⟨?_, ?_, ?_, ?_, ?_, ?_⟩
            · rw [← hsp, h1]
              simp only [phRender]
              simp only [List.append_assoc, List.cons_append, List.nil_append]
              simp [hX]
            · rw [← h1]; exact hlitp
            · rw [← h3]; exact scanLit_fst_litOK _
            · exact fun x hx => List.mem_takeWhile_imp hx
            · exact fun x hx => List.mem_takeWhile_imp hx
            · simp
          · simp [hv1, hs1] at h
      · simp [hd1] at h
        by_cases hv1 : d1 = 'v'
        · subst hv1
          simp at h
          obtain ⟨hok, h1, h2, h3⟩ := h
          subst h2
          have hwsuf : u1 = suf := by
            have h4 := scanLit_append u1
            rw [hok, List.append_nil, h3] at h4
            exact h4.symm
          have hX : List.takeWhile isFmtDigit (c1 :: t1) ++ 'v' :: suf = (c1 :: t1) := by
            rw [← hwsuf, ← hdw]
            exact List.takeWhile_append_dropWhile _ _
          refine ⟨?_, ?_, ?_, ?_, ?_, ?_⟩
          · rw [← hsp, h1]
            simp only [phRender]
            simp only [List.append_assoc, List.cons_append, List.nil_append]
            simp [hX]
          · rw [← h1]; exact hlitp
          · rw [← h3]; exact scanLit_fst_litOK _
          · exact fun x hx => List.mem_takeWhile_imp hx
          · simp
          · simp
        by_cases hs1 : d1 = 's'
        · subst hs1
          simp at h
          obtain ⟨hok, h1, h2, h3⟩ := h
          subst h2
          have hwsuf : u1 = suf := by
            have h4 := scanLit_append u1
            rw [hok, List.append_nil, h3] at h4
            exact h4.symm
          have hX : List.takeWhile isFmtDigit (c1 :: t1) ++ 's' :: suf = (c1 :: t1) := by
            rw [← hwsuf, ← hdw]
            exact List.takeWhile_append_dropWhile _ _
          refine ⟨?_, ?_, ?_, ?_, ?_, ?_⟩
          · rw [← hsp, h1]
            simp only [phRender]
            simp only [List.append_assoc, List.cons_append, List.nil_append]
            simp [hX]
          · rw [← h1]; exact hlitp
          · rw [← h3]; exact scanLit_fst_litOK _
          · exact fun x hx => List.mem_takeWhile_imp hx
          · simp
          · simp
        · simp [hv1, hs1] at h
  next => exact absurd h (by simp)

theorem digitsToNat_nil : digitsToNat [] = 0 := rfl

theorem parseAttrFormat_ok_iff (s : List Char) :
    (∃ af, parseAttrFormat s = .ok af) ↔ FormatSpecOK s := by
  constructor
  · rintro ⟨af, haf⟩
    unfold parseAttrFormat at haf
    rcases hm : matchAttrFormat s with _ | ⟨pre, ph, suf⟩
    · rw [hm] at haf; exact absurd haf (by simp)
    rw [hm] at haf
    rcases ph with _ | c
    · obtain ⟨hse, hsuf, hlit⟩ := matchAttrFormat_sound_none s pre suf hm
      exact Or.inl (by rw [hse]; exact hlit)
    · obtain ⟨hes, hlp, hlq, hdmin, hdmax, hnd⟩ := matchAttrFormat_sound s pre suf c hm
      simp only [] at haf
      by_cases h1 : c.minW ≠ [] ∧ goMaxInt < digitsToNat c.minW
      · rw [if_pos h1] at haf; exact absurd haf (by simp)
      rw [if_neg h1] at haf
      by_cases h2 : c.maxW ≠ [] ∧ goMaxInt < digitsToNat c.maxW
      · rw [if_pos h2] at haf; exact absurd haf (by simp)
      have hb1 : digitsToNat c.minW ≤ goMaxInt := by
        by_cases he : c.minW = []
        · rw [he, digitsToNat_nil]; simp [goMaxInt]
        · rcases Decidable.not_and_iff_or_not.mp h1 with h | h
          · exact absurd he (by simpa using h)
          · omega
      have hb2 : digitsToNat c.maxW ≤ goMaxInt := by
        by_cases he : c.maxW = []
        · rw [he, digitsToNat_nil]; simp [goMaxInt]
        · rcases Decidable.not_and_iff_or_not.mp h2 with h | h
          · exact absurd he (by simpa using h)
          · omega
      refine Or.inr ⟨pre, phRender c, suf, hes, hlp, hlq, ?_⟩
      obtain ⟨al, minW, hasDot, ts, maxW, vb⟩ := c
      refine ⟨al, minW,
        (if hasDot then some (ts, maxW) else none),
        (if vb then 's' else 'v'), ?_, hdmin, ?_, ?_, hb1, ?_⟩
      · cases hasDot <;> cases vb <;> simp [phRender]
      · intro pr hpr x hx
        cases hasDot
        · simp at hpr
        · simp at hpr
          subst hpr
          exact hdmax x hx
      · cases vb <;> simp
      · intro pr hpr
        cases hasDot
        · simp at hpr
        · simp at hpr
          subst hpr
          exact hb2
  · rintro (hlit | ⟨p, mid, q, hse, hlp, hlq, alignL, ds, dot, verb,
      hmid, hds, hdotds, hverb, hb1, hb2⟩)
    · have hm : matchAttrFormat s = some (s, none, []) := by
        simp [matchAttrFormat, scanLit_snd_empty_of_litOK s hlit]
      rcases hx : parseAttrFormat s with e | af
      · exfalso
        unfold parseAttrFormat at hx
        rw [hm] at hx
        simp at hx
      · exact ⟨af, rfl⟩
    have hc1 : ¬(ds ≠ [] ∧ goMaxInt < digitsToNat ds) := by
      rintro ⟨-, hlt⟩; omega
    subst hmid
    rcases dot with _ | ⟨b, l⟩
    · have hse' : s = p ++ ('%' :: ((if alignL then ['-'] else []) ++ ds ++ [verb])) ++ q := by
        rw [hse]; simp
      have hm := mafc_nodot p q ds alignL verb hlp hlq hds hverb
      rw [← hse'] at hm
      rcases hx : parseAttrFormat s with e | af
      · exfalso
        unfold parseAttrFormat at hx
        rw [hm] at hx
        simp [hc1] at hx
      · exact ⟨af, rfl⟩
    · have hds2 : ∀ x ∈ l, isFmtDigit x = true := hdotds (b, l) rfl
      have hbl : digitsToNat l ≤ goMaxInt := hb2 (b, l) rfl
      have hc2 : ¬(l ≠ [] ∧ goMaxInt < digitsToNat l) := by
        rintro ⟨-, hlt⟩; omega
      have hm := mafc_dot p q ds l alignL b verb hlp hlq hds hds2 hverb
      rw [← hse] at hm
      rcases hx : parseAttrFormat s with e | af
      · exfalso
        unfold parseAttrFormat at hx
        rw [hm] at hx
        simp [hc1, hc2] at hx
      · exact ⟨af, rfl⟩

theorem parseAttrFormat_error_suffix (s e : List Char)
    (h : parseAttrFormat s = .error e) : ∃ m, e = m ++ s := by
  unfold parseAttrFormat at h
  rcases hm : matchAttrFormat s with _ | ⟨pre, ph, suf⟩ <;> rw [hm] at h
  · exact ⟨"slogx: invalid attr format: ".toList, by simpa using h.symm⟩
  · rcases ph with _ | c
    · simp at h
    simp only [] at h
    split at h
    next h1 => exact ⟨"slogx: invalid attr format (min width): ".toList, by simpa using h.symm⟩
    next h1 =>
      split at h
      next h2 => exact ⟨"slogx: invalid attr format (max width): ".toList, by simpa using h.symm⟩
      next h2 => exact absurd h (by simp)

theorem parseAttrFormatMapE_ok_iff (fmt : List (List Char × List Char)) :
    (∃ m, parseAttrFormatMapE fmt = .ok m) ↔ ∀ kv ∈ fmt, FormatSpecOK kv.2 := by
  induction fmt with
  | nil => exact ⟨fun _ kv hkv => absurd hkv (by simp), fun _ => ⟨[], rfl⟩⟩
  | cons kv rest ih =>
    constructor
    · rintro ⟨m, hm⟩ kv' hkv'
      unfold parseAttrFormatMapE at hm
      rcases hp : parseAttrFormat kv.2 with e | af <;> rw [hp] at hm
      · exact absurd hm (by simp)
      rcases hr : parseAttrFormatMapE rest with e | m' <;> rw [hr] at hm
      · exact absurd hm (by simp)
      rcases List.mem_cons.mp hkv' with h | h
      · subst h
        exact (parseAttrFormat_ok_iff _).mp ⟨af, hp⟩
      · exact (ih.mp ⟨m', hr⟩) kv' h
    · intro hall
      have h1 : FormatSpecOK kv.2 := hall kv (by simp)
      obtain ⟨af, hp⟩ := (parseAttrFormat_ok_iff kv.2).mpr h1
      obtain ⟨m', hr⟩ := ih.mpr (fun kv' hkv' => hall kv' (by simp [hkv']))
      exact ⟨(kv.1, af) :: m', by simp [parseAttrFormatMapE, hp, hr]⟩

theorem parseAttrFormatMapE_error (fmt : List (List Char × List Char)) (e : List Char)
    (h : parseAttrFormatMapE fmt = .error e) :
    ∃ kv ∈ fmt, ¬FormatSpecOK kv.2 ∧ ∃ m, e = m ++ kv.2 := by
  induction fmt with
  | nil => exact absurd h (by simp [parseAttrFormatMapE])
  | cons kv rest ih =>
    unfold parseAttrFormatMapE at h
    rcases hp : parseAttrFormat kv.2 with e' | af <;> rw [hp] at h
    · have he : e' = e := by simpa using h
      subst he
      refine ⟨kv, by simp, ?_, parseAttrFormat_error_suffix kv.2 e' hp⟩
      intro hok
      obtain ⟨af, haf⟩ := (parseAttrFormat_ok_iff kv.2).mpr hok
      rw [haf] at hp
      exact absurd hp (by simp)
    rcases hr : parseAttrFormatMapE rest with e' | m' <;> rw [hr] at h
    · have he : e' = e := by simpa using h
      subst he
      obtain ⟨kv', hmem, hbad, hsuf⟩ := ih hr
      exact ⟨kv', by simp [hmem], hbad, hsuf⟩
    · exact absurd h (by simp)

theorem NewLayoutHandlerE_ok_iff (format : List (List Char × List Char))
    (prefixKeys suffixKeys : List (List Char)) :
    (∃ h, NewLayoutHandlerE format prefixKeys suffixKeys = .ok h) ↔
      ∀ kv ∈ format, FormatSpecOK kv.2 := by
  constructor
  · rintro ⟨h, hh⟩
    unfold NewLayoutHandlerE at hh
    rcases hm : parseAttrFormatMapE format with e | f <;> rw [hm] at hh
    · exact absurd hh (by simp)
    · exact (parseAttrFormatMapE_ok_iff format).mp ⟨f, hm⟩
  · intro hall
    obtain ⟨m, hm⟩ := (parseAttrFormatMapE_ok_iff format).mpr hall
    refine ⟨⟨newLayoutHandler
      { Format := m, PrefixKeys := prefixKeys, SuffixKeys := suffixKeys }⟩, ?_⟩
    unfold NewLayoutHandlerE
    rw [hm]

theorem NewLayoutHandlerE_error (format : List (List Char × List Char))
    (prefixKeys suffixKeys : List (List Char)) (e : List Char)
    (h : NewLayoutHandlerE format prefixKeys suffixKeys = .error e) :
    ∃ kv ∈ format, ¬FormatSpecOK kv.2 ∧ ∃ m, e = m ++ kv.2 := by
  unfold NewLayoutHandlerE at h
  rcases hm : parseAttrFormatMapE format with e' | f <;> rw [hm] at h
  · have he : e' = e := by simpa using h
    subst he
    exact parseAttrFormatMapE_error format e' hm
  · exact absurd h (by simp)

/-! ## UTF-8 lemmas -/

theorem char_toNat_lt (c : Char) : c.toNat < 1114112 := by
  have h := c.valid
  rcases h with h | ⟨_, h2⟩
  · exact Nat.lt_trans h (by norm_num)
  · exact h2

theorem utf8Len_pos (c : Char) : 1 ≤ utf8Len c := by
  unfold utf8Len
  repeat' split
  all_goals omega

theorem utf8Len_le_four (c : Char) : utf8Len c ≤ 4 := by
  unfold utf8Len
  repeat' split
  all_goals omega

theorem length_utf8EncodeChar (c : Char) :
    (utf8EncodeChar c).length = utf8Len c := by
  unfold utf8EncodeChar utf8Len
  by_cases h1 : c.toNat < 0x80 <;>
    by_cases h2 : c.toNat < 0x800 <;>
      by_cases h3 : c.toNat < 0x10000 <;>
        simp [h1, h2, h3]

theorem utf8EncodeChar_ne_nil (c : Char) : utf8EncodeChar c ≠ [] := by
  unfold utf8EncodeChar
  by_cases h1 : c.toNat < 0x80 <;>
    by_cases h2 : c.toNat < 0x800 <;>
      by_cases h3 : c.toNat < 0x10000 <;>
        simp [h1, h2, h3]

theorem utf8Encode_nil : utf8Encode [] = [] := rfl

theorem utf8Encode_cons (c : Char) (cs : List Char) :
    utf8Encode (c :: cs) = utf8EncodeChar c ++ utf8Encode cs := by
  simp [utf8Encode]

theorem utf8Encode_append (a b : List Char) :
    utf8Encode (a ++ b) = utf8Encode a ++ utf8Encode b := by
  simp [utf8Encode]

theorem utf8Encode_eq_nil_iff (cs : List Char) :
    utf8Encode cs = [] ↔ cs = [] := by
  cases cs with
  | nil => simp [utf8Encode]
  | cons c cs =>
    simp only [utf8Encode_cons]
    constructor
    · intro h
      exact absurd (List.append_eq_nil.mp h).1 (utf8EncodeChar_ne_nil c)
    · intro h
      exact absurd h (by simp)

theorem decodeRuneSize_encode (c : Char) (r : List Nat) :
    decodeRuneSize (utf8EncodeChar c ++ r) = utf8Len c := by
  have hv := char_toNat_lt c
  unfold utf8EncodeChar utf8Len
  by_cases h1 : c.toNat < 0x80
  · simp only [if_pos h1]
    unfold decodeRuneSize
    simp only [List.cons_append]
    rw [if_pos h1]
  · by_cases h2 : c.toNat < 0x800
    · simp only [if_neg h1, if_pos h2]
      unfold decodeRuneSize
      simp only [List.cons_append]
      rw [if_neg (by omega), if_pos, if_pos]
      · simp only [contBytes, isContByte, Bool.and_eq_true, decide_eq_true_eq]
        exact ⟨⟨by omega, by omega⟩, trivial⟩
      · simp only [Bool.and_eq_true, decide_eq_true_eq]
        constructor <;> omega
    · by_cases h3 : c.toNat < 0x10000
      · simp only [if_neg h1, if_neg h2, if_pos h3]
        unfold decodeRuneSize
        simp only [List.cons_append]
        rw [if_neg (by omega), if_neg, if_pos, if_pos]
        · simp only [contBytes, isContByte, Bool.and_eq_true, decide_eq_true_eq]
          exact ⟨⟨by omega, by omega⟩, ⟨by omega, by omega⟩, trivial⟩
        · simp only [Bool.and_eq_true, decide_eq_true_eq]
          constructor <;> omega
        · simp only [Bool.and_eq_true, decide_eq_true_eq]
          omega
      · simp only [if_neg h1, if_neg h2, if_neg h3]
        unfold decodeRuneSize
        simp only [List.cons_append]
        rw [if_neg (by omega), if_neg, if_neg, if_pos, if_pos]
        · simp only [contBytes, isContByte, Bool.and_eq_true, decide_eq_true_eq]
          exact ⟨⟨by omega, by omega⟩, ⟨by omega, by omega⟩, ⟨by omega, by omega⟩,
            trivial⟩
        · simp only [Bool.and_eq_true, decide_eq_true_eq]
          constructor <;> omega
        · simp only [Bool.and_eq_true, decide_eq_true_eq]
          omega
        · simp only [Bool.and_eq_true, decide_eq_true_eq]
          omega

theorem drop_utf8EncodeChar (c : Char) (r : List Nat) :
    (utf8EncodeChar c ++ r).drop (utf8Len c) = r := by
  rw [← length_utf8EncodeChar]
  exact List.drop_left _ _

theorem decodeRuneSize_pos (l : List Nat) (h : l ≠ []) :
    1 ≤ decodeRuneSize l := by
  cases l with
  | nil => exact absurd rfl h
  | cons b rest =>
    simp only [decodeRuneSize]
    repeat' split
    all_goals omega

/-- The first byte of an encoded string is 34 iff the first char is '"'. -/
theorem utf8Encode_head_quote (cs : List Char) :
    ((utf8Encode cs).head? = some 34) = (cs.head? = some '"') := by
  cases cs with
  | nil => simp [utf8Encode]
  | cons c cs =>
    rw [utf8Encode_cons]
    have hv := char_toNat_lt c
    by_cases hc : c = '"'
    · subst hc
      simp only [List.head?_cons, Option.some.injEq]
      have : utf8EncodeChar '"' = [34] := rfl
      rw [this]
      simp
    · simp only [List.head?_cons, Option.some.injEq]
      have hne : c.toNat ≠ 34 := by
        intro h
        apply hc
        have h2 := Char.ofNat_toNat c
        rw [h] at h2
        exact h2.symm
      unfold utf8EncodeChar
      by_cases h1 : c.toNat < 0x80 <;>
        by_cases h2 : c.toNat < 0x800 <;>
          by_cases h3 : c.toNat < 0x10000 <;>
            simp [h1, h2, h3, hc]
      all_goals omega

theorem runeCountAux_encode (cs : List Char) :
    ∀ fuel, (utf8Encode cs).length ≤ fuel →
      runeCountAux fuel (utf8Encode cs) = cs.length := by
  induction cs with
  | nil => intro fuel _; cases fuel <;> simp [runeCountAux, utf8Encode]
  | cons c cs ih =>
    intro fuel hfuel
    have hne : utf8Encode (c :: cs) ≠ [] := by
      rw [Ne, utf8Encode_eq_nil_iff]; simp
    have hlen : 1 ≤ (utf8Encode (c :: cs)).length := by
      cases hh : utf8Encode (c :: cs) with
      | nil => exact absurd hh hne
      | cons x xs => simp
    cases fuel with
    | zero => omega
    | succ fuel =>
      cases hh : utf8Encode (c :: cs) with
      | nil => exact absurd hh hne
      | cons x xs =>
        rw [← hh]
        have hstep : runeCountAux (fuel + 1) (utf8Encode (c :: cs)) =
            1 + runeCountAux fuel ((utf8Encode (c :: cs)).drop
              (decodeRuneSize (utf8Encode (c :: cs)))) := by
          rw [hh]
          rfl
        rw [hstep, utf8Encode_cons, decodeRuneSize_encode, drop_utf8EncodeChar]
        rw [ih fuel ?_]
        · simp [Nat.add_comm]
        · have : (utf8Encode (c :: cs)).length =
              (utf8EncodeChar c).length + (utf8Encode cs).length := by
            rw [utf8Encode_cons]; simp
          have hp := utf8Len_pos c
          rw [length_utf8EncodeChar] at this
          omega

theorem runeCount_encode (cs : List Char) :
    runeCount (utf8Encode cs) = cs.length :=
  runeCountAux_encode cs _ (le_refl _)

/-- Byte length of the encoding of the first k chars. -/
def byteOff (cs : List Char) (k : Nat) : Nat :=
  (utf8Encode (cs.take k)).length

theorem byteOff_zero (cs : List Char) : byteOff cs 0 = 0 := rfl

theorem take_utf8Encode (cs : List Char) (k : Nat) :
    (utf8Encode cs).take (byteOff cs k) = utf8Encode (cs.take k) := by
  have h : utf8Encode cs = utf8Encode (cs.take k) ++ utf8Encode (cs.drop k) := by
    rw [← utf8Encode_append, List.take_append_drop]
  rw [byteOff, h]
  exact List.take_left _ _

theorem drop_utf8Encode (cs : List Char) (k : Nat) :
    (utf8Encode cs).drop (byteOff cs k) = utf8Encode (cs.drop k) := by
  have h : utf8Encode cs = utf8Encode (cs.take k) ++ utf8Encode (cs.drop k) := by
    rw [← utf8Encode_append, List.take_append_drop]
  rw [byteOff, h]
  exact List.drop_left _ _

theorem byteOff_succ (cs : List Char) (k : Nat) (hk : k < cs.length) :
    byteOff cs (k + 1) = byteOff cs k + utf8Len (cs.getD k 'x') := by
  unfold byteOff
  rw [List.take_succ]
  simp only [utf8Encode_append]
  rw [List.getElem?_eq_getElem hk]
  simp [utf8Encode, length_utf8EncodeChar, List.getD, List.getElem?_eq_getElem hk]

/-! ## The counting loop on decoded characters

`countChars` is the character-level image of `countLoop`: on the byte list
`utf8Encode cs` the loop consumes exactly the encoding of one character
per step, so the two agree (countLoop_encode). -/

def countChars (format : AttrFormat) (nMax : Int) (quoted : Bool) :
    List Char → Nat → Nat → Nat → Nat → List Nat →
    Nat × Nat × Nat × List Nat
  | [], _, n, cutPos, startPos, sizes => (n, cutPos, startPos, sizes)
  | c :: cs, i, n, cutPos, startPos, sizes =>
    if (n : Int) ≤ nMax ∨ format.TruncFromStart then
      let size := utf8Len c
      let i1 := i + size
      let n1 := n + 1
      let startPos1 :=
        if 0 < sizes.length then
          if (n1 : Int) > format.MaxWidth then
            startPos + sizes.getD (n1 % sizes.length) 0
          else startPos
        else startPos
      let sizes1 :=
        if 0 < sizes.length then sizes.set (n1 % sizes.length) size else sizes
      let cutPos1 :=
        if 2 ≤ format.MaxWidth ∧ quoted = false ∧ (n1 : Int) = format.MaxWidth - 1 then i1
        else if 2 < format.MaxWidth ∧ quoted = true ∧ (n1 : Int) = format.MaxWidth - 2 then i1
        else cutPos
      countChars format nMax quoted cs i1 n1 cutPos1 startPos1 sizes1
    else (n, cutPos, startPos, sizes)

theorem countLoop_encode (format : AttrFormat) (nMax : Int) (quoted : Bool) :
    ∀ (cs : List Char) (fuel i n cutPos startPos : Nat) (sizes : List Nat),
      (utf8Encode cs).length ≤ fuel →
      countLoop format nMax quoted fuel (utf8Encode cs) i n cutPos startPos sizes
        = countChars format nMax quoted cs i n cutPos startPos sizes := by
  intro cs
  induction cs with
  | nil =>
    intro fuel i n cutPos startPos sizes _
    cases fuel <;> rfl
  | cons c cs ih =>
    intro fuel i n cutPos startPos sizes hfuel
    have hlen : (utf8Encode (c :: cs)).length =
        utf8Len c + (utf8Encode cs).length := by
      rw [utf8Encode_cons, List.length_append, length_utf8EncodeChar]
    have hpos := utf8Len_pos c
    cases fuel with
    | zero => omega
    | succ fuel =>
      obtain ⟨b, bs, hb⟩ : ∃ b bs, utf8Encode (c :: cs) = b :: bs := by
        cases hh : utf8Encode (c :: cs) with
        | nil =>
          rw [utf8Encode_eq_nil_iff] at hh
          simp at hh
        | cons b bs => exact ⟨b, bs, rfl⟩
      have hsz : decodeRuneSize (utf8Encode (c :: cs)) = utf8Len c := by
        rw [utf8Encode_cons]; exact decodeRuneSize_encode c _
      have hdrop : (utf8Encode (c :: cs)).drop (utf8Len c) = utf8Encode cs := by
        rw [utf8Encode_cons]; exact drop_utf8EncodeChar c _
      have hstep : countLoop format nMax quoted (fuel + 1) (utf8Encode (c :: cs))
          i n cutPos startPos sizes =
          if (n : Int) ≤ nMax ∨ format.TruncFromStart then
            countLoop format nMax quoted fuel
              ((utf8Encode (c :: cs)).drop (decodeRuneSize (utf8Encode (c :: cs))))
              (i + decodeRuneSize (utf8Encode (c :: cs))) (n + 1)
              (if 2 ≤ format.MaxWidth ∧ quoted = false ∧
                  ((n + 1 : Nat) : Int) = format.MaxWidth - 1 then
                 i + decodeRuneSize (utf8Encode (c :: cs))
               else if 2 < format.MaxWidth ∧ quoted = true ∧
                  ((n + 1 : Nat) : Int) = format.MaxWidth - 2 then
                 i + decodeRuneSize (utf8Encode (c :: cs))
               else cutPos)
              (if 0 < sizes.length then
                 if ((n + 1 : Nat) : Int) > format.MaxWidth then
                   startPos + sizes.getD ((n + 1) % sizes.length) 0
                 else startPos
               else startPos)
              (if 0 < sizes.length then
                 sizes.set ((n + 1) % sizes.length)
                   (decodeRuneSize (utf8Encode (c :: cs)))
               else sizes)
          else (n, cutPos, startPos, sizes) := by
        rw [hb]; rfl
      rw [hstep, hsz, hdrop]
      by_cases hg : (n : Int) ≤ nMax ∨ format.TruncFromStart
      · rw [if_pos hg]
        rw [ih fuel (i + utf8Len c) (n + 1) _ _ _ (by omega)]
        simp only [countChars, if_pos hg]
      · rw [if_neg hg]
        simp only [countChars, if_neg hg]

/-! ### Closed forms for the counting loop -/

/-- nMax = max(MinWidth, MaxWidth) as computed in appendFormatValue. -/
def nMaxOf (format : AttrFormat) : Int := max format.MinWidth format.MaxWidth

/-- The ring buffer length (MaxWidth when truncating from the start). -/
def ringLen (format : AttrFormat) : Nat :=
  if format.TruncFromStart ∧ 0 < format.MaxWidth then format.MaxWidth.toNat
  else 0

/-- The rune count at which the loop stops. -/
def stopN (format : AttrFormat) (N : Nat) : Nat :=
  if format.TruncFromStart then N else min N ((nMaxOf format).toNat + 1)

/-- The value of cutPos after k counted runes. -/
def cutAt (format : AttrFormat) (quoted : Bool) (full : List Char) (k : Nat) :
    Nat :=
  if quoted = false ∧ 2 ≤ format.MaxWidth ∧ (format.MaxWidth - 1).toNat ≤ k then
    byteOff full (format.MaxWidth - 1).toNat
  else if quoted = true ∧ 2 < format.MaxWidth ∧ (format.MaxWidth - 2).toNat ≤ k then
    byteOff full (format.MaxWidth - 2).toNat
  else 0

/-- The value of startPos after k counted runes. -/
def startAt (format : AttrFormat) (full : List Char) (k : Nat) : Nat :=
  if 0 < ringLen format ∧ ringLen format ≤ k then
    byteOff full (k - ringLen format)
  else 0

/-- The index (1-based) of the last rune among the first n whose index is
congruent to j modulo rl. -/
def lastCong : Nat → Nat → Nat → Option Nat
  | 0, _, _ => none
  | n + 1, rl, j => if (n + 1) % rl = j then some (n + 1) else lastCong n rl j

/-- The ring-buffer slot content after k counted runes. -/
def sizeSpec (full : List Char) (rl k j : Nat) : Nat :=
  match lastCong k rl j with
  | some m => utf8Len (full.getD (m - 1) 'x')
  | none => 0

theorem lastCong_eq (rl j : Nat) (hrl : 0 < rl) :
    ∀ n m, 1 ≤ m → m ≤ n → m % rl = j → n < m + rl →
      lastCong n rl j = some m := by
  intro n
  induction n with
  | zero => intro m h1 h2 _ _; omega
  | succ n ih =>
    intro m h1 h2 h3 h4
    by_cases hm : m = n + 1
    · subst hm
      simp only [lastCong, if_pos h3]
    · have h2n : m ≤ n := by omega
      have hcond : (n + 1) % rl ≠ j := by
        intro hj
        rw [← h3] at hj
        have hd : (n + 1) - m < rl := by omega
        have hd0 : 0 < (n + 1) - m := by omega
        have hmod : Nat.ModEq rl m (n + 1) := hj.symm
        have hdvd : rl ∣ (n + 1) - m := (Nat.modEq_iff_dvd' (by omega)).mp hmod
        obtain ⟨t, ht⟩ := hdvd
        match t with
        | 0 => omega
        | t + 1 =>
          have hle : rl ≤ rl * (t + 1) := Nat.le_mul_of_pos_right rl (by omega)
          omega
      simp only [lastCong, if_neg hcond]
      exact ih m h1 h2n h3 (by omega)

theorem getD_set_self (l : List Nat) (i v : Nat) (h : i < l.length) :
    (l.set i v).getD i 0 = v := by
  simp [List.getD, List.getElem?_set, h]

theorem getD_set_ne (l : List Nat) (i j v : Nat) (h : i ≠ j) :
    (l.set i v).getD j 0 = l.getD j 0 := by
  simp [List.getD, List.getElem?_set, h]

theorem getD_eq_getElem (l : List Char) (d : Char) (n : Nat)
    (h : n < l.length) : l.getD n d = l[n] := by
  simp [List.getD, List.getElem?_eq_getElem h]

theorem stopN_le (format : AttrFormat) (N : Nat) : stopN format N ≤ N := by
  unfold stopN
  split <;> omega

/-- One step of the cutPos update matches `cutAt`. -/
theorem cutAt_step (format : AttrFormat) (quoted : Bool) (full : List Char)
    (k : Nat) :
    (if 2 ≤ format.MaxWidth ∧ quoted = false ∧
        ((k + 1 : Nat) : Int) = format.MaxWidth - 1 then
       byteOff full (k + 1)
     else if 2 < format.MaxWidth ∧ quoted = true ∧
        ((k + 1 : Nat) : Int) = format.MaxWidth - 2 then
       byteOff full (k + 1)
     else cutAt format quoted full k) =
    cutAt format quoted full (k + 1) := by
  unfold cutAt
  cases quoted <;>
    split_ifs <;>
      first
        | rfl
        | omega
        | (congr 1; omega)
        | (exfalso; omega)
        | (simp_all; done)
        | (simp_all; omega)

/-- The state-characterization of the counting loop: starting from the
state reached after k runes, the loop finishes in the state after
`stopN` runes. -/
theorem countChars_from (format : AttrFormat) (quoted : Bool)
    (full : List Char) (hnMax : 0 < nMaxOf format) :
    ∀ d k sizes, stopN format full.length - k = d →
      k ≤ stopN format full.length →
      sizes.length = ringLen format →
      (∀ j, j < ringLen format →
        sizes.getD j 0 = sizeSpec full (ringLen format) k j) →
      (countChars format (nMaxOf format) quoted (full.drop k)
         (byteOff full k) k (cutAt format quoted full k)
         (startAt format full k) sizes).1 = stopN format full.length ∧
      (countChars format (nMaxOf format) quoted (full.drop k)
         (byteOff full k) k (cutAt format quoted full k)
         (startAt format full k) sizes).2.1 =
        cutAt format quoted full (stopN format full.length) ∧
      (countChars format (nMaxOf format) quoted (full.drop k)
         (byteOff full k) k (cutAt format quoted full k)
         (startAt format full k) sizes).2.2.1 =
        startAt format full (stopN format full.length) ∧
      (countChars format (nMaxOf format) quoted (full.drop k)
         (byteOff full k) k (cutAt format quoted full k)
         (startAt format full k) sizes).2.2.2.length = ringLen format ∧
      (∀ j, j < ringLen format →
        (countChars format (nMaxOf format) quoted (full.drop k)
           (byteOff full k) k (cutAt format quoted full k)
           (startAt format full k) sizes).2.2.2.getD j 0 =
          sizeSpec full (ringLen format) (stopN format full.length) j) := by
  intro d
  induction d with
  | zero =>
    intro k sizes hd hk hlen hsz
    have hks : k = stopN format full.length := by omega
    by_cases hN : full.length ≤ k
    · have hnil : full.drop k = [] := List.drop_eq_nil_of_le hN
      rw [hnil]
      simp only [countChars]
      exact ⟨hks, by rw [hks], by rw [hks], hlen, by rw [← hks]; exact hsz⟩
    · push_neg at hN
      have hcons := List.drop_eq_getElem_cons hN
      have hTFS : format.TruncFromStart = false := by
        by_contra hT
        simp only [Bool.not_eq_false] at hT
        have : stopN format full.length = full.length := by
          unfold stopN; rw [hT]; simp
        omega
      have hkval : k = (nMaxOf format).toNat + 1 := by
        have : stopN format full.length =
            min full.length ((nMaxOf format).toNat + 1) := by
          unfold stopN; rw [hTFS]; simp
        omega
      have hguard : ¬((k : Int) ≤ nMaxOf format ∨ format.TruncFromStart = true) := by
        push_neg
        refine ⟨?_, by simp [hTFS]⟩
        omega
      rw [hcons]
      simp only [countChars, if_neg hguard]
      exact ⟨hks, by rw [hks], by rw [hks], hlen, by rw [← hks]; exact hsz⟩
  | succ d ih =>
    intro k sizes hd hk hlen hsz
    have hkN : k < full.length := by
      have := stopN_le format full.length
      omega
    have hcons := List.drop_eq_getElem_cons hkN
    have hguard : (k : Int) ≤ nMaxOf format ∨ format.TruncFromStart = true := by
      by_cases hT : format.TruncFromStart = true
      · exact Or.inr hT
      · left
        have hTFS : format.TruncFromStart = false := by
          simpa using hT
        have : stopN format full.length =
            min full.length ((nMaxOf format).toNat + 1) := by
          unfold stopN; rw [hTFS]; simp
        omega
    rw [hcons]
    simp only [countChars, if_pos hguard]
    set c := full[k] with hc
    have hgetD : full.getD k 'x' = c := getD_eq_getElem full 'x' k hkN
    have hoff : byteOff full k + utf8Len c = byteOff full (k + 1) := by
      rw [byteOff_succ full k hkN, hgetD]
    -- relate ring length facts
    have hrlW : 0 < ringLen format →
        format.TruncFromStart = true ∧ 0 < format.MaxWidth ∧
          ringLen format = format.MaxWidth.toNat := by
      intro h
      unfold ringLen at h ⊢
      by_cases hT : format.TruncFromStart = true ∧ 0 < format.MaxWidth
      · simp only [if_pos hT]
        exact ⟨hT.1, hT.2, trivial⟩
      · rw [if_neg hT] at h
        omega
    -- the new startPos equals startAt (k+1)
    have hstart :
        (if 0 < sizes.length then
           if ((k + 1 : Nat) : Int) > format.MaxWidth then
             startAt format full k + sizes.getD ((k + 1) % sizes.length) 0
           else startAt format full k
         else startAt format full k) = startAt format full (k + 1) := by
      by_cases hrl : 0 < sizes.length
      · rw [if_pos hrl]
        rw [hlen] at hrl
        obtain ⟨hT, hW, hrlw⟩ := hrlW hrl
        by_cases hgt : ((k + 1 : Nat) : Int) > format.MaxWidth
        · rw [if_pos hgt]
          have hkrl : ringLen format ≤ k := by
            rw [hrlw]; omega
          have hread : sizes.getD ((k + 1) % sizes.length) 0 =
              utf8Len (full.getD (k - ringLen format) 'x') := by
            rw [hsz ((k + 1) % sizes.length) (by rw [← hlen]; exact Nat.mod_lt _ (hlen ▸ hrl))]
            unfold sizeSpec
            rw [hlen]
            have hlc : lastCong k (ringLen format) ((k + 1) % ringLen format) =
                some (k + 1 - ringLen format) := by
              refine lastCong_eq (ringLen format) _ hrl k
                (k + 1 - ringLen format) ?_ ?_ ?_ ?_
              · omega
              · omega
              · have hsplit : k + 1 = (k + 1 - ringLen format) + ringLen format := by
                  omega
                conv_rhs => rw [hsplit]
                rw [Nat.add_mod_right]
              · omega
            rw [hlc]
            show utf8Len (full.getD (k + 1 - ringLen format - 1) 'x') = _
            have heq : k + 1 - ringLen format - 1 = k - ringLen format := by omega
            rw [heq]
          rw [hread]
          unfold startAt
          rw [if_pos ⟨hrl, hkrl⟩, if_pos ⟨hrl, by omega⟩]
          have hidx : k + 1 - ringLen format = (k - ringLen format) + 1 := by
            omega
          rw [hidx]
          have hsub : k - ringLen format < full.length := by omega
          rw [byteOff_succ full (k - ringLen format) hsub]
        · rw [if_neg hgt]
          unfold startAt
          have hkrl : ¬ringLen format ≤ k := by
            rw [hrlw]; omega
          rw [if_neg (by tauto)]
          by_cases hk1 : ringLen format ≤ k + 1
          · rw [if_pos ⟨hrl, hk1⟩]
            have : k + 1 - ringLen format = 0 := by
              rw [hrlw] at hk1 hkrl ⊢; omega
            rw [this, byteOff_zero]
          · rw [if_neg (by tauto)]
      · rw [if_neg hrl]
        have hrl0 : ringLen format = 0 := by omega
        unfold startAt
        rw [hrl0]
        simp
    -- the new sizes list
    have hsizes1len :
        (if 0 < sizes.length then
           sizes.set ((k + 1) % sizes.length) (utf8Len c) else sizes).length =
        ringLen format := by
      split <;> simp [hlen]
    have hsizes1 : ∀ j, j < ringLen format →
        (if 0 < sizes.length then
           sizes.set ((k + 1) % sizes.length) (utf8Len c) else sizes).getD j 0 =
        sizeSpec full (ringLen format) (k + 1) j := by
      intro j hj
      have hrl : 0 < sizes.length := by omega
      rw [if_pos hrl]
      have hrlpos : 0 < ringLen format := by omega
      by_cases hjeq : (k + 1) % sizes.length = j
      · rw [← hjeq]
        rw [getD_set_self _ _ _ (by rw [hlen]; rw [hlen] at hrl; exact Nat.mod_lt _ hrl)]
        unfold sizeSpec
        rw [hlen] at hjeq ⊢
        have hlc : lastCong (k + 1) (ringLen format) ((k + 1) % ringLen format) =
            some (k + 1) := by
          simp [lastCong]
        rw [hjeq] at hlc ⊢
        rw [hlc]
        simp only [Nat.add_sub_cancel]
        rw [hgetD]
      · rw [getD_set_ne _ _ _ _ hjeq]
        rw [hsz j hj]
        unfold sizeSpec
        have hne : (k + 1) % ringLen format ≠ j := by
          rw [← hlen]; exact hjeq
        have hlc : lastCong (k + 1) (ringLen format) j =
            lastCong k (ringLen format) j := by
          simp only [lastCong, if_neg hne]
        rw [hlc]
    -- the new cutPos equals cutAt (k+1)
    have hcut :
        (if 2 ≤ format.MaxWidth ∧ quoted = false ∧
            ((k + 1 : Nat) : Int) = format.MaxWidth - 1 then
           byteOff full k + utf8Len c
         else if 2 < format.MaxWidth ∧ quoted = true ∧
            ((k + 1 : Nat) : Int) = format.MaxWidth - 2 then
           byteOff full k + utf8Len c
         else cutAt format quoted full k) =
        cutAt format quoted full (k + 1) := by
      rw [hoff]
      exact cutAt_step format quoted full k
    rw [hcut, hstart, hoff]
    have hrec := ih (k + 1)
      (if 0 < sizes.length then
         sizes.set ((k + 1) % sizes.length) (utf8Len c) else sizes)
      (by omega) (by omega) hsizes1len hsizes1
    exact hrec

theorem cutAt_zero (format : AttrFormat) (quoted : Bool) (full : List Char) :
    cutAt format quoted full 0 = 0 := by
  unfold cutAt
  split_ifs <;> first | rfl | omega

theorem startAt_zero (format : AttrFormat) (full : List Char) :
    startAt format full 0 = 0 := by
  unfold startAt
  split_ifs <;> first | rfl | omega

/-- The counting loop from the initial state. -/
theorem countChars_spec0 (format : AttrFormat) (quoted : Bool)
    (full : List Char) (hnMax : 0 < nMaxOf format) :
    (countChars format (nMaxOf format) quoted full 0 0 0 0
       (List.replicate (ringLen format) 0)).1 = stopN format full.length ∧
    (countChars format (nMaxOf format) quoted full 0 0 0 0
       (List.replicate (ringLen format) 0)).2.1 =
      cutAt format quoted full (stopN format full.length) ∧
    (countChars format (nMaxOf format) quoted full 0 0 0 0
       (List.replicate (ringLen format) 0)).2.2.1 =
      startAt format full (stopN format full.length) ∧
    (countChars format (nMaxOf format) quoted full 0 0 0 0
       (List.replicate (ringLen format) 0)).2.2.2.length = ringLen format ∧
    (∀ j, j < ringLen format →
      (countChars format (nMaxOf format) quoted full 0 0 0 0
         (List.replicate (ringLen format) 0)).2.2.2.getD j 0 =
        sizeSpec full (ringLen format) (stopN format full.length) j) := by
  have h := countChars_from format quoted full hnMax
    (stopN format full.length) 0 (List.replicate (ringLen format) 0)
    (by omega) (by omega) (by simp)
    (by
      intro j hj
      simp only [sizeSpec, lastCong]
      simp)
  rw [List.drop_zero, byteOff_zero, cutAt_zero, startAt_zero] at h
  exact h

/-- '…' encodes to the three marker bytes. -/
theorem encode_ellipsis : utf8EncodeChar '…' = ellipsisBytes := rfl

/-- '"' encodes to byte 34. -/
theorem encode_quote : utf8EncodeChar '"' = [34] := rfl

theorem encode_replicate_space (n : Nat) :
    utf8Encode (List.replicate n ' ') = List.replicate n attrSep := by
  induction n with
  | zero => rfl
  | succ n ih =>
    rw [List.replicate_succ, utf8Encode_cons, ih, List.replicate_succ]
    rfl

/-- The character-level result of applyWidth (derived specification used
to state and prove the width/truncation claims). -/
def applyWidthSpec (format : AttrFormat) (cs : List Char) : List Char :=
  let N := cs.length
  let quoted := cs.head? = some '"'
  let w := format.MaxWidth
  let cs1 :=
    if 0 < w ∧ w < (N : Int) then
      if format.TruncFromStart then
        if w = 1 then ['…']
        else if quoted ∧ w = 2 then ['…', '…']
        else if quoted then '"' :: '…' :: cs.drop (N - w.toNat + 2)
        else '…' :: cs.drop (N - w.toNat + 1)
      else
        if quoted then
          if w = 1 then ['…']
          else if w = 2 then ['…', '…']
          else cs.take (w.toNat - 2) ++ ['…', '"']
        else
          if w = 1 then ['…'] else cs.take (w.toNat - 1) ++ ['…']
    else cs
  let n1 : Int := if 0 < w ∧ w < (N : Int) then w else (N : Int)
  if format.MinWidth > n1 then
    let pad := (format.MinWidth - n1).toNat
    if format.AlignRight then List.replicate pad ' ' ++ cs1
    else cs1 ++ List.replicate pad ' '
  else cs1

theorem stopN_cases (format : AttrFormat) (N : Nat) :
    (format.TruncFromStart = true ∧ stopN format N = N) ∨
    (format.TruncFromStart = false ∧
      stopN format N = min N ((nMaxOf format).toNat + 1)) := by
  unfold stopN
  by_cases h : format.TruncFromStart = true
  · exact Or.inl ⟨h, by rw [if_pos h]⟩
  · exact Or.inr ⟨by simpa using h, by rw [if_neg h]⟩

theorem utf8Encode_snoc (xs : List Char) (c : Char) :
    utf8Encode (xs ++ [c]) = utf8Encode xs ++ utf8EncodeChar c := by
  rw [utf8Encode_append]
  simp [utf8Encode]

theorem pad_encode (M w1 : Int) (ar : Bool) (v : List Nat) (c1 : List Char)
    (hv : v = utf8Encode c1) :
    (if M > w1 then
       (if ar = true then List.replicate (M - w1).toNat attrSep ++ v
        else v ++ List.replicate (M - w1).toNat attrSep)
     else v) =
    utf8Encode (if M > w1 then
       (if ar = true then List.replicate (M - w1).toNat ' ' ++ c1
        else c1 ++ List.replicate (M - w1).toNat ' ')
     else c1) := by
  subst hv
  split_ifs <;> simp [utf8Encode_append, encode_replicate_space]

theorem startReadA (full : List Char) (rl : Nat) (hrl : 0 < rl)
    (hN : rl < full.length) :
    sizeSpec full rl full.length ((full.length + 1) % rl) =
      utf8Len (full.getD (full.length - rl) 'x') := by
  unfold sizeSpec
  rw [lastCong_eq rl _ hrl full.length (full.length + 1 - rl) (by omega)
    (by omega)
    (by
      have hsplit : full.length + 1 = (full.length + 1 - rl) + rl := by omega
      conv_rhs => rw [hsplit]
      rw [Nat.add_mod_right])
    (by omega)]
  show utf8Len (full.getD (full.length + 1 - rl - 1) 'x') = _
  have heq : full.length + 1 - rl - 1 = full.length - rl := by omega
  rw [heq]

theorem startReadB (full : List Char) (rl : Nat) (hrl : 1 < rl)
    (hN : rl < full.length) :
    sizeSpec full rl full.length ((full.length + 2) % rl) =
      utf8Len (full.getD (full.length + 1 - rl) 'x') := by
  unfold sizeSpec
  rw [lastCong_eq rl _ (by omega) full.length (full.length + 2 - rl) (by omega)
    (by omega)
    (by
      have hsplit : full.length + 2 = (full.length + 2 - rl) + rl := by omega
      conv_rhs => rw [hsplit]
      rw [Nat.add_mod_right])
    (by omega)]
  show utf8Len (full.getD (full.length + 2 - rl - 1) 'x') = _
  have heq : full.length + 2 - rl - 1 = full.length + 1 - rl := by omega
  rw [heq]

theorem byteOff_two (full : List Char) (a : Nat) (h1 : a + 1 < full.length) :
    byteOff full a + utf8Len (full.getD a 'x') + utf8Len (full.getD (a + 1) 'x') =
      byteOff full (a + 2) := by
  have h2 : a + 2 = (a + 1) + 1 := rfl
  rw [h2, byteOff_succ full (a + 1) h1, byteOff_succ full a (by omega)]

set_option maxHeartbeats 4000000 in
theorem applyWidth_encode (format : AttrFormat) (cs : List Char) :
    applyWidth format (utf8Encode cs) = utf8Encode (applyWidthSpec format cs) := by
  by_cases h0 : 0 < nMaxOf format
  case pos =>
    have hnM' : 0 < max format.MinWidth format.MaxWidth := h0
    have hWmax : format.MaxWidth ≤ nMaxOf format := le_max_right _ _
    have hMmax : format.MinWidth ≤ nMaxOf format := le_max_left _ _
    have hstop := stopN_cases format cs.length
    simp only [applyWidth, applyWidthSpec]
    rw [if_pos hnM']
    rw [show (if format.TruncFromStart = true ∧ 0 < format.MaxWidth then
          List.replicate format.MaxWidth.toNat 0 else []) =
        List.replicate (ringLen format) 0 from by
      unfold ringLen; split <;> simp]
    rw [countLoop_encode format _ _ cs _ 0 0 0 0 _ (le_refl _)]
    rw [show (max format.MinWidth format.MaxWidth) = nMaxOf format from rfl]
    have hsp := countChars_spec0 format (decide ((utf8Encode cs).head? = some 34)) cs h0
    obtain ⟨hn, hcut, hstart, hslen, hsget⟩ := hsp
    rw [hn, hcut, hstart, hslen]
    by_cases htr : 0 < format.MaxWidth ∧ format.MaxWidth < (cs.length : Int)
    case pos =>
      have hSW : (↑(stopN format cs.length) : Int) > format.MaxWidth := by
        rcases hstop with ⟨_, hS⟩ | ⟨_, hS⟩ <;> omega
      have hA : (0 < format.MaxWidth ∧
          (↑(stopN format cs.length) : Int) > format.MaxWidth) = True :=
        eq_true ⟨htr.1, hSW⟩
      have hA2 : (0 < format.MaxWidth ∧
          format.MaxWidth < ((cs.length : Nat) : Int)) = True := eq_true htr
      simp only [hA, hA2, if_true]
      apply pad_encode
      by_cases hT : format.TruncFromStart = true
      case pos =>
        -- truncate from start
        have hSN : stopN format cs.length = cs.length := by
          rcases hstop with ⟨_, hS⟩ | ⟨hF, _⟩
          · exact hS
          · rw [hT] at hF; cases hF
        have hrl : ringLen format = format.MaxWidth.toNat := by
          unfold ringLen; rw [if_pos ⟨hT, htr.1⟩]
        have hrlpos : 0 < ringLen format := by omega
        have hrlN : ringLen format < cs.length := by
          have := htr.2
          omega
        simp only [hT, if_true]
        by_cases hw1 : format.MaxWidth = 1
        · simp only [hw1, if_pos rfl]
          rfl
        · have hw1' : (format.MaxWidth = 1) = False := eq_false hw1
          simp only [hw1', if_false]
          by_cases hq : (utf8Encode cs).head? = some 34
          · -- quoted
            have hqc : cs.head? = some '"' := by
              rw [← utf8Encode_head_quote]; exact hq
            have hq' : ((utf8Encode cs).head? = some 34) = True := eq_true hq
            have hqc' : (cs.head? = some '"') = True := eq_true hqc
            simp only [hq', hqc', true_and, if_true]
            by_cases hw2 : format.MaxWidth = 2
            · simp only [hw2, if_pos rfl]
              rfl
            · have hw2' : (format.MaxWidth = 2) = False := eq_false hw2
              simp only [hw2', if_false]
              -- general quoted from-start: W > 2
              have hW3 : 2 < format.MaxWidth := by omega
              have hB : (0 < ringLen format ∧
                  (↑(stopN format cs.length) : Int) > format.MaxWidth) = True :=
                eq_true ⟨hrlpos, hSW⟩
              have h1rl : (1 < ringLen format) = True := eq_true (by omega)
              simp only [hB, h1rl, true_and, if_true]
              simp only [hq'] at hsget
              rw [hSN]
              rw [hsget ((cs.length + 1) % ringLen format)
                (Nat.mod_lt _ hrlpos)]
              rw [hsget ((cs.length + 2) % ringLen format)
                (Nat.mod_lt _ hrlpos)]
              rw [hSN]
              rw [startReadA cs (ringLen format) hrlpos hrlN]
              rw [startReadB cs (ringLen format) (by omega) hrlN]
              have hst : startAt format cs cs.length =
                  byteOff cs (cs.length - ringLen format) := by
                unfold startAt
                rw [if_pos ⟨hrlpos, by omega⟩]
              rw [hst]
              rw [show cs.length + 1 - ringLen format =
                  (cs.length - ringLen format) + 1 from by omega]
              rw [byteOff_two cs (cs.length - ringLen format) (by omega)]
              rw [drop_utf8Encode]
              rw [show cs.length - ringLen format + 2 =
                  cs.length - format.MaxWidth.toNat + 2 from by omega]
              rw [show (34 : Nat) :: ellipsisBytes ++
                    utf8Encode (cs.drop (cs.length - format.MaxWidth.toNat + 2)) =
                  utf8Encode ('"' :: '…' ::
                    cs.drop (cs.length - format.MaxWidth.toNat + 2)) from by
                rw [utf8Encode_cons, utf8Encode_cons]
                rfl]
          · -- unquoted from-start
            have hqc : ¬cs.head? = some '"' := by
              rw [← utf8Encode_head_quote]; exact hq
            have hq' : ((utf8Encode cs).head? = some 34) = False := eq_false hq
            have hqc' : (cs.head? = some '"') = False := eq_false hqc
            simp only [hq', hqc', false_and, if_false]
            have hB : (0 < ringLen format ∧
                (↑(stopN format cs.length) : Int) > format.MaxWidth) = True :=
              eq_true ⟨hrlpos, hSW⟩
            simp only [hB, if_true]
            simp only [hq'] at hsget
            rw [hSN]
            rw [hsget ((cs.length + 1) % ringLen format) (Nat.mod_lt _ hrlpos)]
            rw [hSN]
            rw [startReadA cs (ringLen format) hrlpos hrlN]
            have hst : startAt format cs cs.length =
                byteOff cs (cs.length - ringLen format) := by
              unfold startAt
              rw [if_pos ⟨hrlpos, by omega⟩]
            rw [hst]
            rw [show byteOff cs (cs.length - ringLen format) +
                  utf8Len (cs.getD (cs.length - ringLen format) 'x') =
                byteOff cs (cs.length - ringLen format + 1) from
              (byteOff_succ cs (cs.length - ringLen format) (by omega)).symm]
            rw [drop_utf8Encode]
            rw [show cs.length - ringLen format + 1 =
                cs.length - format.MaxWidth.toNat + 1 from by omega]
            rw [show ellipsisBytes ++
                  utf8Encode (cs.drop (cs.length - format.MaxWidth.toNat + 1)) =
                utf8Encode ('…' ::
                  cs.drop (cs.length - format.MaxWidth.toNat + 1)) from by
              rw [utf8Encode_cons]
              rfl]
      case neg =>
        -- truncate from end
        have hT' : (format.TruncFromStart = true) = False := eq_false hT
        simp only [hT', if_false]
        have hqd := utf8Encode_head_quote cs
        by_cases hq : (utf8Encode cs).head? = some 34
        · -- quoted
          have hqc : cs.head? = some '"' := by rw [← hqd]; exact hq
          have hq' : ((utf8Encode cs).head? = some 34) = False → False := fun h => by
            rw [h] at hq; exact hq
          have hqP : (¬(utf8Encode cs).head? = some 34) = False :=
            eq_false (by simpa using hq)
          have hqc' : (cs.head? = some '"') = True := eq_true hqc
          simp only [hqP, hqc', if_false, if_true]
          have hqdec : decide ((utf8Encode cs).head? = some 34) = true :=
            decide_eq_true hq
          by_cases hw1 : format.MaxWidth = 1
          · simp only [hw1, if_pos rfl]
            have hcv : cutAt format (decide ((utf8Encode cs).head? = some 34))
                cs (stopN format cs.length) = 0 := by
              unfold cutAt
              rw [hqdec]
              rw [if_neg (by simp), if_neg (by omega)]
            rw [hcv]
            simp [utf8Encode, encode_ellipsis]
          · have hw1' : (format.MaxWidth = 1) = False := eq_false hw1
            simp only [hw1', if_false]
            by_cases hw2 : format.MaxWidth = 2
            · simp only [hw2, if_pos rfl]
              have hcv : cutAt format (decide ((utf8Encode cs).head? = some 34))
                  cs (stopN format cs.length) = 0 := by
                unfold cutAt
                rw [hqdec]
                rw [if_neg (by simp), if_neg (by omega)]
              rw [hcv]
              simp [utf8Encode, encode_ellipsis]
            · have hw2' : (format.MaxWidth = 2) = False := eq_false hw2
              simp only [hw2', if_false]
              have hW3 : 2 < format.MaxWidth := by omega
              have hScut : (format.MaxWidth - 2).toNat ≤ stopN format cs.length := by
                omega
              have hcv : cutAt format (decide ((utf8Encode cs).head? = some 34))
                  cs (stopN format cs.length) =
                  byteOff cs (format.MaxWidth - 2).toNat := by
                unfold cutAt
                rw [hqdec]
                rw [if_neg (by simp), if_pos ⟨rfl, hW3, hScut⟩]
              rw [hcv, take_utf8Encode]
              rw [show (format.MaxWidth - 2).toNat = format.MaxWidth.toNat - 2
                  from by omega]
              rw [show utf8Encode (cs.take (format.MaxWidth.toNat - 2)) ++
                    (ellipsisBytes ++ [34]) =
                  utf8Encode (cs.take (format.MaxWidth.toNat - 2) ++ ['…', '"'])
                  from by
                rw [utf8Encode_append]
                rfl]
        · -- unquoted
          have hqc : ¬cs.head? = some '"' := by rw [← hqd]; exact hq
          have hqP : (¬(utf8Encode cs).head? = some 34) = True :=
            eq_true hq
          have hqc' : (cs.head? = some '"') = False := eq_false hqc
          simp only [hqP, hqc', if_false, if_true]
          have hqdec : decide ((utf8Encode cs).head? = some 34) = false :=
            decide_eq_false hq
          by_cases hw1 : format.MaxWidth = 1
          · simp only [hw1, if_pos rfl]
            have hcv : cutAt format (decide ((utf8Encode cs).head? = some 34))
                cs (stopN format cs.length) = 0 := by
              unfold cutAt
              rw [hqdec]
              rw [if_neg (by omega), if_neg (by simp)]
            rw [hcv]
            simp [utf8Encode, encode_ellipsis]
          · have hw1' : (format.MaxWidth = 1) = False := eq_false hw1
            simp only [hw1', if_false]
            have hW2 : 2 ≤ format.MaxWidth := by omega
            have hScut : (format.MaxWidth - 1).toNat ≤ stopN format cs.length := by
              omega
            have hcv : cutAt format (decide ((utf8Encode cs).head? = some 34))
                cs (stopN format cs.length) =
                byteOff cs (format.MaxWidth - 1).toNat := by
              unfold cutAt
              rw [hqdec]
              rw [if_pos ⟨rfl, hW2, hScut⟩]
            rw [hcv, take_utf8Encode]
            rw [show (format.MaxWidth - 1).toNat = format.MaxWidth.toNat - 1
                from by omega]
            rw [show utf8Encode (cs.take (format.MaxWidth.toNat - 1)) ++
                  ellipsisBytes =
                utf8Encode (cs.take (format.MaxWidth.toNat - 1) ++ ['…'])
                from by
              rw [utf8Encode_snoc]
              rfl]
    case neg =>
      -- no truncation
      have hnSW : ¬(0 < format.MaxWidth ∧
          (↑(stopN format cs.length) : Int) > format.MaxWidth) := by
        intro hcon
        apply htr
        rcases hstop with ⟨_, hS⟩ | ⟨_, hS⟩ <;>
          exact ⟨hcon.1, by omega⟩
      have hA : (0 < format.MaxWidth ∧
          (↑(stopN format cs.length) : Int) > format.MaxWidth) = False :=
        eq_false hnSW
      have hA2 : (0 < format.MaxWidth ∧
          format.MaxWidth < ((cs.length : Nat) : Int)) = False := eq_false htr
      simp only [hA, hA2, if_false]
      by_cases hpad : format.MinWidth > (cs.length : Int)
      · have hSN : stopN format cs.length = cs.length := by
          rcases hstop with ⟨_, hS⟩ | ⟨_, hS⟩
          · exact hS
          · omega
        rw [hSN]
        exact pad_encode _ _ _ _ _ rfl
      · have hnpadS : ¬format.MinWidth > (↑(stopN format cs.length) : Int) := by
          rcases hstop with ⟨_, hS⟩ | ⟨_, hS⟩ <;> omega
        rw [if_neg hnpadS, if_neg hpad]
  case neg =>
    have hM : format.MinWidth ≤ 0 := by
      have h1 := le_max_left format.MinWidth format.MaxWidth
      have h2 : ¬0 < max format.MinWidth format.MaxWidth := h0
      omega
    have hW : format.MaxWidth ≤ 0 := by
      have h1 := le_max_right format.MinWidth format.MaxWidth
      have h2 : ¬0 < max format.MinWidth format.MaxWidth := h0
      omega
    have h0' : ¬0 < max format.MinWidth format.MaxWidth := h0
    have hA : ¬(0 < format.MaxWidth ∧ ((0:Nat):Int) > format.MaxWidth) := by omega
    have hB : ¬(0 < format.MaxWidth ∧ format.MaxWidth < (cs.length:Int)) := by omega
    have hC : ¬format.MinWidth > ((0:Nat):Int) := by omega
    have hD : ¬format.MinWidth > (cs.length:Int) := by omega
    simp only [applyWidth, applyWidthSpec]
    rw [if_neg h0']
    dsimp only
    rw [if_neg hA, if_neg hA, if_neg hC, if_neg hB, if_neg hB, if_neg hD]

/-! ## Length and ellipsis-count facts about the width algorithm
(for claims C3 and C4) -/

set_option maxHeartbeats 1600000 in
theorem applyWidthSpec_length (f : AttrFormat) (cs : List Char) :
    ((applyWidthSpec f cs).length : Int) =
      max f.MinWidth (if 0 < f.MaxWidth ∧ f.MaxWidth < (cs.length : Int)
                      then f.MaxWidth else (cs.length : Int)) := by
  simp only [applyWidthSpec]
  by_cases htr : 0 < f.MaxWidth ∧ f.MaxWidth < (cs.length : Int)
  case neg =>
    rw [if_neg htr, if_neg htr]
    split_ifs <;> simp <;> omega
  case pos =>
    rw [if_pos htr, if_pos htr]
    obtain ⟨hw0, hwN⟩ := htr
    split_ifs <;>
      (simp [List.length_append, List.length_take, List.length_drop]
       push_cast
       omega)

theorem count_take_drop_zero (cs : List Char) (c : Char) (h : c ∉ cs) :
    (∀ k, (cs.take k).count c = 0) ∧ (∀ k, (cs.drop k).count c = 0) :=
  ⟨fun k => List.count_eq_zero.mpr (fun hm => h (List.take_subset k cs hm)),
   fun k => List.count_eq_zero.mpr (fun hm => h (List.drop_subset k cs hm))⟩

theorem applyWidthSpec_ellipsis_count (f : AttrFormat) (cs : List Char)
    (hno : '…' ∉ cs)
    (htr : 0 < f.MaxWidth ∧ f.MaxWidth < (cs.length : Int))
    (hM : f.MinWidth ≤ f.MaxWidth) :
    (¬(cs.head? = some '"' ∧ (f.MaxWidth = 1 ∨ f.MaxWidth = 2)) →
      (applyWidthSpec f cs).count '…' = 1) ∧
    (cs.head? = some '"' → f.MaxWidth = 1 → applyWidthSpec f cs = ['…']) ∧
    (cs.head? = some '"' → f.MaxWidth = 2 → applyWidthSpec f cs = ['…', '…']) := by
  obtain ⟨htk, hdr⟩ := count_take_drop_zero cs '…' hno
  have hnp : ¬(f.MinWidth > f.MaxWidth) := by omega
  simp only [applyWidthSpec]
  rw [if_pos htr, if_pos htr, if_neg hnp]
  refine ⟨?_, ?_, ?_⟩
  · intro hexc
    split_ifs with h1 h2 h3 h4 h5 h6 h7 h8 <;>
      simp_all [List.count_cons, List.count_append]
  · intro hq h1
    split_ifs <;> simp_all
  · intro hq h2
    have h1 : ¬(f.MaxWidth = 1) := by omega
    split_ifs <;> simp_all

/-! ## Identity and value-independence facts (for claims C8 and C9) -/

theorem countEmptyGroups_all (as : List Attr)
    (h : ∀ a ∈ as, isEmptyGroupValue a.2 = true) :
    countEmptyGroups as = as.length := by
  induction as with
  | nil => rfl
  | cons a rest ih =>
    have h1 : isEmptyGroupValue a.2 = true := h a (by simp)
    have hstep : ∀ (l : List Attr) (n : Nat),
        l.foldl (fun n a => if isEmptyGroupValue a.2 then n + 1 else n) n =
        l.foldl (fun n a => if isEmptyGroupValue a.2 then n + 1 else n) 0 + n := by
      intro l
      induction l with
      | nil => intro n; simp
      | cons b l ihl =>
        intro n
        simp only [List.foldl_cons]
        rw [ihl, ihl (if isEmptyGroupValue b.2 then 0 + 1 else 0)]
        split <;> omega
    unfold countEmptyGroups at ih ⊢
    simp only [List.foldl_cons, h1, if_true]
    rw [hstep]
    rw [ih (fun a ha => h a (by simp [ha]))]
    simp

theorem parseAttrFormat_litOK (s : List Char) (hs : litOK s = true) :
    parseAttrFormat s = .ok ⟨unescapePercent s, [], 0, 0, true, false, false⟩ := by
  have hm : matchAttrFormat s = some (s, none, []) := by
    simp [matchAttrFormat, scanLit_snd_empty_of_litOK s hs]
  unfold parseAttrFormat
  rw [hm]
  simp [unescapePercent]

theorem appendFormat_value_free (st : HandleState) (af : AttrFormat)
    (key : List Char) (v w : Value) (hM : af.MinWidth = 0) (hW : af.MaxWidth = 0) :
    appendFormat st af key v = appendFormat st af key w := by
  unfold appendFormat
  simp [hM, hW]

theorem appendLeaf_value_free (opts : LayoutOptions) (st : HandleState)
    (key : List Char) (v w : Value) (af : AttrFormat)
    (hlk : lookupFmt opts.Format key = some af)
    (hM : af.MinWidth = 0) (hW : af.MaxWidth = 0) :
    appendLeaf opts st key v = appendLeaf opts st key w := by
  have hf : ∀ s, appendFormat s af key v = appendFormat s af key w :=
    fun s => appendFormat_value_free s af key v w hM hW
  unfold appendLeaf
  simp only [hlk, hf]

theorem appendAttr_value_free (opts : LayoutOptions) (st : HandleState)
    (k : List Char) (v1 v2 : Value) (af : AttrFormat)
    (hlk : lookupFmt opts.Format (stateKey st k) = some af)
    (hM : af.MinWidth = 0) (hW : af.MaxWidth = 0)
    (h1 : v1.isGroup = false) (h2 : v2.isGroup = false)
    (hz1 : isZeroAttr (k, v1) = false) (hz2 : isZeroAttr (k, v2) = false) :
    appendAttr opts st (k, v1) = appendAttr opts st (k, v2) := by
  have hleaf := appendLeaf_value_free opts st (stateKey st k) v1 v2 af hlk hM hW
  cases v1 <;> cases v2 <;>
    simp_all [appendAttr, appendAttrKV, isZeroAttr, Value.isGroup]

/-! ## The claim theorems -/

/-- C1: construction (NewLayoutHandlerE, the model of the NewLayoutHandler
panic) fails if and only if some value of the Format map violates the
spec's format grammar (FormatSpecOK: a literal run with %% escapes, at most
one placeholder `%[-][digits][.[-][digits]](v|s)`, widths within the native
integer range); the failure happens at construction and the panic message
carries the offending spec string as its suffix. -/
theorem construction_fails_iff_invalid_format
    (format : List (List Char × List Char))
    (prefixKeys suffixKeys : List (List Char)) :
    ((∃ hw, NewLayoutHandlerE format prefixKeys suffixKeys = .ok hw) ↔
      ∀ kv ∈ format, FormatSpecOK kv.2) ∧
    (∀ e, NewLayoutHandlerE format prefixKeys suffixKeys = .error e →
      ∃ kv ∈ format, ¬FormatSpecOK kv.2 ∧ ∃ m, e = m ++ kv.2) :=
  ⟨NewLayoutHandlerE_ok_iff format prefixKeys suffixKeys,
   fun e he => NewLayoutHandlerE_error format prefixKeys suffixKeys e he⟩

/-- C1 witness: a Format map whose single value is the bare `%` makes
construction fail with a message ending in that value. -/
theorem construction_fails_iff_invalid_format_witness :
    ∃ kv ∈ [([('k' : Char)], [('%' : Char)])], ¬FormatSpecOK kv.2 ∧
      ∃ m, "slogx: invalid attr format: %".toList = m ++ kv.2 :=
  (construction_fails_iff_invalid_format [([('k' : Char)], [('%' : Char)])] [] []).2
    "slogx: invalid attr format: %".toList (by rfl)

/-- C2: with PrefixKeys = ["e","d"], SuffixKeys = ["b","a"] and the time,
level and message built-ins suppressed by empty format strings, handling
one record with attrs a=1,b=2,c=3,d=4,e=5 writes exactly
`e=5 d=4 c=3 b=2 a=1` and a single trailing newline: prefix slots in
PrefixKeys order, the non-designated attr c in natural position, suffix
slots in SuffixKeys order, single-space separated. -/
theorem handle_prefix_suffix_order :
    (NewLayoutHandlerE [(TimeKey, []), (LevelKey, []), (MessageKey, [])]
        [['e'], ['d']] [['b'], ['a']]).toOption.map
      (fun hw => (hw.next.Handle ⟨none, 0, "test".toList,
        [(['a'], .int 1), (['b'], .int 2), (['c'], .int 3),
         (['d'], .int 4), (['e'], .int 5)]⟩).1) =
    some (utf8Encode "e=5 d=4 c=3 b=2 a=1\n".toList) := by decide

/-- C3 counterexample: a directive with MinWidth 2 and MaxWidth 1 applied
to "abc" renders 2 code points, breaking the claimed `≤ MaxWidth` bound
(padding to the larger MinWidth re-exceeds the maximum width). -/
theorem width_bounds_counterexample :
    (0 < (⟨[], [], 2, 1, true, false, true⟩ : AttrFormat).MaxWidth) ∧
    ((runeCount (applyWidth ⟨[], [], 2, 1, true, false, true⟩
        (utf8Encode "abc".toList)) : Int) >
      (⟨[], [], 2, 1, true, false, true⟩ : AttrFormat).MaxWidth) := by decide

/-- C3 (amended): when no truncation applies the rendered value has at
least MinWidth code points, padded with ASCII spaces on the configured
side; and the `≤ MaxWidth` bound holds provided MinWidth ≤ MaxWidth (it
fails when MinWidth exceeds MaxWidth, see the counterexample). -/
theorem width_bounds_amended (format : AttrFormat) (cs : List Char) :
    (¬(0 < format.MaxWidth ∧ format.MaxWidth < (cs.length : Int)) →
       format.MinWidth ≤ (runeCount (applyWidth format (utf8Encode cs)) : Int) ∧
       (format.MinWidth > (cs.length : Int) →
         applyWidth format (utf8Encode cs) =
           utf8Encode (if format.AlignRight = true then
               List.replicate (format.MinWidth - cs.length).toNat ' ' ++ cs
             else cs ++ List.replicate (format.MinWidth - cs.length).toNat ' '))) ∧
    (0 < format.MaxWidth → format.MinWidth ≤ format.MaxWidth →
       (runeCount (applyWidth format (utf8Encode cs)) : Int) ≤ format.MaxWidth) := by
  have hrc : (runeCount (applyWidth format (utf8Encode cs)) : Int) =
      ((applyWidthSpec format cs).length : Int) := by
    rw [applyWidth_encode, runeCount_encode]
  constructor
  · intro hnt
    constructor
    · rw [hrc, applyWidthSpec_length, if_neg hnt]
      exact le_max_left _ _
    · intro hp
      rw [applyWidth_encode]
      congr 1
      simp only [applyWidthSpec]
      rw [if_neg hnt, if_neg hnt, if_pos hp]
  · intro hw hMW
    rw [hrc, applyWidthSpec_length]
    by_cases ht : format.MaxWidth < (cs.length : Int)
    · rw [if_pos ⟨hw, ht⟩]
      omega
    · rw [if_neg (fun hc => ht hc.2)]
      omega

/-- C3 witness: MinWidth 3 on the 1-char value "q" pads to 3 code points;
MaxWidth 2 with MinWidth 1 on "world" truncates to at most 2. -/
theorem width_bounds_amended_witness :
    (¬(0 < (2 : Int) ∧ (2 : Int) < 1) →
      (3 : Int) ≤ (runeCount (applyWidth ⟨[], [], 3, 2, true, false, true⟩
        (utf8Encode ['q'])) : Int)) ∧
    ((0 : Int) < 2 → (1 : Int) ≤ 2 →
      (runeCount (applyWidth ⟨[], [], 1, 2, false, false, true⟩
        (utf8Encode "world".toList)) : Int) ≤ 2) :=
  ⟨fun h => ((width_bounds_amended ⟨[], [], 3, 2, true, false, true⟩ ['q']).1
      (by simpa using h)).1,
   fun _ _ => (width_bounds_amended ⟨[], [], 1, 2, false, false, true⟩
      "world".toList).2 (by decide) (by decide)⟩

/-- C4 counterexample: a value already containing `…` truncated to width 2
yields two ellipsis characters; and a quoted value under MaxWidth 1 with
MinWidth 3 is padded, so the output is not exactly `…`. -/
theorem single_ellipsis_counterexample :
    (applyWidthSpec ⟨[], [], 0, 2, true, false, true⟩ "…abc".toList).count '…' = 2 ∧
    applyWidth ⟨[], [], 3, 1, true, false, false⟩ (utf8Encode "\"ab c\"".toList) ≠
      utf8Encode ['…'] := by decide

/-- C4 (amended): for a value without its own `…`, with
0 < MaxWidth < length and MinWidth ≤ MaxWidth, the truncated output
contains exactly one ellipsis, except a quoted value under width 1 or 2,
which collapses to exactly `…` resp. `……` with no quote characters. -/
theorem single_ellipsis_amended (format : AttrFormat) (cs : List Char)
    (hno : '…' ∉ cs)
    (htr : 0 < format.MaxWidth ∧ format.MaxWidth < (cs.length : Int))
    (hM : format.MinWidth ≤ format.MaxWidth) :
    applyWidth format (utf8Encode cs) = utf8Encode (applyWidthSpec format cs) ∧
    (¬(cs.head? = some '"' ∧ (format.MaxWidth = 1 ∨ format.MaxWidth = 2)) →
      (applyWidthSpec format cs).count '…' = 1) ∧
    (cs.head? = some '"' → format.MaxWidth = 1 →
      applyWidth format (utf8Encode cs) = utf8Encode ['…']) ∧
    (cs.head? = some '"' → format.MaxWidth = 2 →
      applyWidth format (utf8Encode cs) = utf8Encode ['…', '…']) := by
  obtain ⟨hc1, hc2, hc3⟩ := applyWidthSpec_ellipsis_count format cs hno htr hM
  refine ⟨applyWidth_encode format cs, hc1, ?_, ?_⟩
  · intro hq h1
    rw [applyWidth_encode, hc2 hq h1]
  · intro hq h2
    rw [applyWidth_encode, hc3 hq h2]

/-- C4 witness: "hello" truncated to width 3 carries exactly one ellipsis. -/
theorem single_ellipsis_amended_witness :
    ('…' ∉ "hello".toList ∧
      (0 < (3 : Int) ∧ (3 : Int) < ("hello".toList.length : Int)) ∧ (0 : Int) ≤ 3) ∧
    (applyWidthSpec ⟨[], [], 0, 3, true, false, true⟩ "hello".toList).count '…' = 1 :=
  ⟨⟨by decide, by decide, by decide⟩,
    (single_ellipsis_amended ⟨[], [], 0, 3, true, false, true⟩ "hello".toList
      (by decide) (by decide) (by decide)).2.1 (by decide)⟩

/-- C5 counterexample: a directive with MaxWidth 3 but MinWidth 5 pads the
truncated value, so the output is not exactly the first 2 code points plus
one ellipsis. -/
theorem runewise_truncation_counterexample :
    applyWidth ⟨[], [], 5, 3, false, false, true⟩ (utf8Encode "αβγδεζ".toList) ≠
      utf8Encode ("αβγδεζ".toList.take 2 ++ ['…']) := by decide

/-- C5 (amended): for every unquoted 6-code-point value under MaxWidth 3
with MinWidth ≤ 3, the output is exactly the UTF-8 encoding of the first 2
code points plus one ellipsis (or one ellipsis plus the last 2 code points
when truncating from the start) — whole code points, never split bytes. -/
theorem runewise_truncation_amended (format : AttrFormat) (cs : List Char)
    (h6 : cs.length = 6) (hq : ¬(cs.head? = some '"'))
    (hW : format.MaxWidth = 3) (hM : format.MinWidth ≤ 3) :
    applyWidth format (utf8Encode cs) =
      (if format.TruncFromStart = true then utf8Encode ('…' :: cs.drop 4)
       else utf8Encode (cs.take 2 ++ ['…'])) := by
  rw [applyWidth_encode]
  have htr : 0 < format.MaxWidth ∧ format.MaxWidth < (cs.length : Int) := by
    rw [hW, h6]; norm_num
  have hnp : ¬(format.MinWidth > format.MaxWidth) := by omega
  simp only [applyWidthSpec]
  rw [if_pos htr, if_pos htr, if_neg hnp, hW, h6]
  by_cases htfs : format.TruncFromStart = true
  · rw [if_pos htfs, if_pos htfs]
    rw [if_neg (by norm_num : ¬((3 : Int) = 1))]
    rw [if_neg (by simp [hq] : ¬(cs.head? = some '"' ∧ (3 : Int) = 2))]
    rw [if_neg hq]
    rw [show (6 - Int.toNat 3 + 1) = 4 from rfl]
  · rw [if_neg htfs, if_neg htfs]
    rw [if_neg hq]
    rw [if_neg (by norm_num : ¬((3 : Int) = 1))]
    rw [show (Int.toNat 3 - 1) = 2 from rfl]

/-- C5 witness: the 6 multi-byte code points "αβγδεζ" under width 3 become
"αβ…", and "…εζ" under truncate-from-start. -/
theorem runewise_truncation_amended_witness :
    ("αβγδεζ".toList.length = 6 ∧ ¬("αβγδεζ".toList.head? = some '"')) ∧
    applyWidth ⟨[], [], 0, 3, false, false, true⟩ (utf8Encode "αβγδεζ".toList) =
      utf8Encode ("αβγδεζ".toList.take 2 ++ ['…']) ∧
    applyWidth ⟨[], [], 0, 3, false, true, true⟩ (utf8Encode "αβγδεζ".toList) =
      utf8Encode ('…' :: "αβγδεζ".toList.drop 4) :=
  ⟨⟨by decide, by decide⟩,
   by
     have h := runewise_truncation_amended ⟨[], [], 0, 3, false, false, true⟩
       "αβγδεζ".toList (by decide) (by decide) (by decide) (by decide)
     simpa using h,
   by
     have h := runewise_truncation_amended ⟨[], [], 0, 3, false, true, true⟩
       "αβγδεζ".toList (by decide) (by decide) (by decide) (by decide)
     simpa using h⟩

/-- C6: a value whose conversion panics is recovered inside the handler:
appendValue replaces it with `<nil>` on a nil-pointer panic and with a
literal `!PANIC: <message>` marker otherwise (for every state and format),
and in a full record the message and all other attributes still render:
the record [a=1, bad=(nil-pointer panic), oops=(panic "boom"), b=2] writes
`level=INFO msg=test a=1 bad=<nil> oops="!PANIC: boom" b=2` plus newline. -/
theorem panic_recovered_in_handler :
    (∀ (st : HandleState) (f : AttrFormat) (b : Bool) (m : List Char),
       appendValue st (.panicking b m) f =
         if b then appendString st "<nil>".toList noFormat
         else appendString st ("!PANIC: ".toList ++ m) noFormat) ∧
    ((newLayoutHandler ⟨[], [], []⟩).Handle
        ⟨none, 0, "test".toList,
         [(['a'], .int 1), ("bad".toList, .panicking true []),
          ("oops".toList, .panicking false "boom".toList), (['b'], .int 2)]⟩).1 =
      utf8Encode "level=INFO msg=test a=1 bad=<nil> oops=\"!PANIC: boom\" b=2\n".toList :=
  ⟨fun st f b m => by cases b <;> rfl, by decide⟩

/-- C7 (refuting the claim): a Handle call on a record with zero attrs
does NOT leave the handler unchanged — the source reuses h.layoutAttrs for
the per-call state without cloning, so the time slot written while
rendering c7rec1 persists in the returned handler, and a later Handle of a
record without a time still emits the stale `time=10:00:01`. -/
theorem handle_mutates_handler_state :
    ((c7handler.Handle c7rec1).2.layoutAttrs ≠ c7handler.layoutAttrs) ∧
    (c7handler.Handle c7rec2).1 = utf8Encode "level=INFO msg=two\n".toList ∧
    ((c7handler.Handle c7rec1).2.Handle c7rec2).1 =
      utf8Encode "level=INFOtime=10:00:01  msg=two\n".toList ∧
    hasSub (utf8Encode "10:00:01".toList)
      (((c7handler.Handle c7rec1).2.Handle c7rec2).1) = true := by decide

/-- C8 counterexample: with Format {"pass": " pass=REDACTED"} (no
placeholder), a group value logged under "pass" bypasses the directive
entirely: the line shows `pass.x=secret` and no `pass=REDACTED`, while a
string value renders the literal. -/
theorem no_placeholder_counterexample :
    ((newLayoutHandler
        ⟨[("pass".toList, fmtOf " pass=REDACTED".toList)], [], []⟩).Handle
      ⟨none, 0, ['m'],
       [("pass".toList, .group (.cons ['x'] (.str "secret".toList) .nil))]⟩).1 =
      utf8Encode "level=INFO msg=m pass.x=secret\n".toList ∧
    ((newLayoutHandler
        ⟨[("pass".toList, fmtOf " pass=REDACTED".toList)], [], []⟩).Handle
      ⟨none, 0, ['m'], [("pass".toList, .str "secret1".toList)]⟩).1 =
      utf8Encode "level=INFO msg=m pass=REDACTED\n".toList := by decide

/-- C8 (amended): a placeholder-free format spec parses to a directive
with only a literal prefix, and the rendered contribution of an attribute
with that key is value-independent — provided the value is not a group and
not the zero attr (groups are dispatched before the directive applies, see
the counterexample). -/
theorem no_placeholder_amended (s : List Char) (hs : litOK s = true) :
    parseAttrFormat s = .ok ⟨unescapePercent s, [], 0, 0, true, false, false⟩ ∧
    ∀ (opts : LayoutOptions) (st : HandleState) (k : List Char) (v1 v2 : Value),
      lookupFmt opts.Format (stateKey st k) =
        some ⟨unescapePercent s, [], 0, 0, true, false, false⟩ →
      v1.isGroup = false → v2.isGroup = false →
      isZeroAttr (k, v1) = false → isZeroAttr (k, v2) = false →
      appendAttr opts st (k, v1) = appendAttr opts st (k, v2) := by
  refine ⟨parseAttrFormat_litOK s hs, ?_⟩
  intro opts st k v1 v2 hlk h1 h2 hz1 hz2
  exact appendAttr_value_free opts st k v1 v2 _ hlk rfl rfl h1 h2 hz1 hz2

/-- C8 witness: under the " pass=REDACTED" directive the attribute renders
the same for the string "secret1" and the int 42. -/
theorem no_placeholder_amended_witness :
    litOK " pass=REDACTED".toList = true ∧
    appendAttr ⟨[(['p'], ⟨" pass=REDACTED".toList, [], 0, 0, true, false, false⟩)], [], []⟩
        ⟨[], [], .sepNone, []⟩ (['p'], .str "secret1".toList) =
      appendAttr ⟨[(['p'], ⟨" pass=REDACTED".toList, [], 0, 0, true, false, false⟩)], [], []⟩
        ⟨[], [], .sepNone, []⟩ (['p'], .int 42) := by
  constructor
  · decide
  · have h := (no_placeholder_amended " pass=REDACTED".toList (by decide)).2
      ⟨[(['p'], ⟨" pass=REDACTED".toList, [], 0, 0, true, false, false⟩)], [], []⟩
      ⟨[], [], .sepNone, []⟩ ['p'] (.str "secret1".toList) (.int 42)
      (by decide) (by decide) (by decide) (by decide) (by decide)
    exact h

/-- C9: WithAttrs on a list of only empty-group attrs and WithGroup with
the empty name are identities, on the internal handler and on the public
wrapper (the source returns the receiver itself, so the result is the same
handler value). -/
theorem with_empty_identity :
    (∀ (h : LayoutHandler) (as : List Attr),
       (∀ a ∈ as, isEmptyGroupValue a.2 = true) → h.WithAttrs as = h) ∧
    (∀ h : LayoutHandler, h.WithGroup [] = h) ∧
    (∀ (hw : LayoutHandlerW) (as : List Attr),
       (∀ a ∈ as, isEmptyGroupValue a.2 = true) → hw.WithAttrs as = hw) ∧
    (∀ hw : LayoutHandlerW, hw.WithGroup [] = hw) := by
  have ha : ∀ (h : LayoutHandler) (as : List Attr),
      (∀ a ∈ as, isEmptyGroupValue a.2 = true) → h.WithAttrs as = h := by
    intro h as hall
    unfold LayoutHandler.WithAttrs
    rw [if_pos (countEmptyGroups_all as hall)]
  have hg : ∀ h : LayoutHandler, h.WithGroup [] = h := by
    intro h
    unfold LayoutHandler.WithGroup
    rw [if_pos rfl]
  refine ⟨ha, hg, ?_, ?_⟩
  · intro hw as hall
    show (⟨hw.next.WithAttrs as⟩ : LayoutHandlerW) = hw
    rw [ha hw.next as hall]
  · intro hw
    show (⟨hw.next.WithGroup []⟩ : LayoutHandlerW) = hw
    rw [hg hw.next]

/-- C9 witness: a fresh handler is unchanged by WithAttrs of one empty
group and by WithGroup of the empty name. -/
theorem with_empty_identity_witness :
    (∀ a ∈ [(([] : List Char), Value.group .nil)], isEmptyGroupValue a.2 = true) ∧
    (newLayoutHandler ⟨[], [], []⟩).WithAttrs [(([] : List Char), Value.group .nil)] =
      newLayoutHandler ⟨[], [], []⟩ ∧
    (newLayoutHandler ⟨[], [], []⟩).WithGroup [] = newLayoutHandler ⟨[], [], []⟩ :=
  ⟨by decide,
   with_empty_identity.1 (newLayoutHandler ⟨[], [], []⟩) _ (by decide),
   with_empty_identity.2.1 (newLayoutHandler ⟨[], [], []⟩)⟩

/-- C10 counterexample: with Format {"value": "%.1s"} and the attr
value="abcde" the emitted line is `level=INFO msg=test…` plus newline — it
ends in the ellipsis alone; the bytes `value=` appear nowhere, so the line
does not end `value=…` as claimed. -/
theorem formatted_value_line_counterexample :
    ((newLayoutHandler ⟨[("value".toList, fmtOf "%.1s".toList)], [], []⟩).Handle
        ⟨none, 0, "test".toList, [("value".toList, .str "abcde".toList)]⟩).1 =
      utf8Encode "level=INFO msg=test…\n".toList ∧
    hasSub (utf8Encode "value=".toList)
      ((newLayoutHandler ⟨[("value".toList, fmtOf "%.1s".toList)], [], []⟩).Handle
        ⟨none, 0, "test".toList, [("value".toList, .str "abcde".toList)]⟩).1 = false := by
  decide

/-- C10 (amended): the rendered value under "%.1s" is the single ellipsis,
and the emitted line ends with that ellipsis and the newline (a Format'd
attribute contributes no `key=` text, so the line does not end `value=…`). -/
theorem formatted_value_line_amended :
    applyWidth (fmtOf "%.1s".toList) (utf8Encode "abcde".toList) = utf8Encode ['…'] ∧
    ((newLayoutHandler ⟨[("value".toList, fmtOf "%.1s".toList)], [], []⟩).Handle
        ⟨none, 0, "test".toList, [("value".toList, .str "abcde".toList)]⟩).1 =
      utf8Encode "level=INFO msg=test".toList ++ utf8Encode ['…'] ++ [10] := by decide

end Slogx
